import Mathlib

namespace Raycast

/-!
Verification of the computational core of a grid-maze raycaster
(`caster.rs`, `player.rs`, `sprite.rs`, `renderer.rs`, `minimap.rs`,
`textures.rs`).

Modelling conventions:
* `f32` values are modelled as exact rationals (`ℚ`); the source algorithms
  are control-flow driven (guards, bounds checks) and every claim under
  examination is about that structure, not about rounding.
* Rust's `x as usize` on a non-negative float is `Nat.floor`; the truncating
  `as i32` cast on a float is `ratTrunc` (round toward zero).
* `f32::INFINITY` (which `caster.rs` introduces for a zero direction
  component) is modelled by `Option ℚ` with `none` standing for `+∞`.
* Machine integers are modelled by `ℤ`/`ℕ`; the source only ever indexes a
  grid after an explicit bounds check, so wrap-around cannot change any
  indexing decision, and release-build arithmetic never panics.
* Unbounded `while` loops are given explicit fuel; where a claim depends on
  the loop running to completion we prove that the chosen fuel suffices.
-/

/-- A maze is a jagged list of rows of cell symbols (`maze.rs`: `Vec<Vec<char>>`). -/
abbrev Maze := List (List Char)

/-- Row access `maze[j]` (total: out of range gives the empty row; the source
only indexes after a bounds check). -/
def rowAt (maze : Maze) (j : ℕ) : List Char := maze.getD j []

/-- Cell access `maze[j][i]` (total: out of range gives `' '`; the source only
indexes after a bounds check). -/
def cellAt (maze : Maze) (i j : ℕ) : Char := (rowAt maze j).getD i ' '

/-- Rust float truncation toward zero (`x as i32` / `.trunc()`). -/
def ratTrunc (q : ℚ) : ℤ := if q < 0 then -(⌊-q⌋) else ⌊q⌋

/-! ## player.rs -/

/-- `player.rs::can_move_to`: a world point is occupiable iff the maze is
empty, or the point is non-negative and its enclosing cell (truncating cast
then integer division by `block_size`) is inside the (jagged) grid with
symbol `' '` or `'R'`. -/
def can_move_to (maze : Maze) (x y : ℚ) (block_size : ℕ) : Bool :=
  if maze.isEmpty then true
  else if x < 0 || y < 0 then false
  else
    let i := ⌊x⌋₊ / block_size
    let j := ⌊y⌋₊ / block_size
    if maze.length ≤ j then false
    else if (rowAt maze j).isEmpty || (rowAt maze j).length ≤ i then false
    else cellAt maze i j == ' ' || cellAt maze i j == 'R'

/-! ## sprite.rs grid helpers -/

/-- `sprite.rs::cell_indices_from_pos`: world position to grid cell indices. -/
def cell_indices_from_pos (pos_x pos_y : ℚ) (block_size : ℕ) : ℤ × ℤ :=
  (⌊pos_x / (block_size : ℚ)⌋, ⌊pos_y / (block_size : ℚ)⌋)

/-- `sprite.rs::in_bounds`. -/
def in_bounds (maze : Maze) (i j : ℤ) : Bool :=
  if j < 0 then false
  else if (maze.length : ℤ) ≤ j then false
  else if i < 0 || (((rowAt maze j.toNat).length : ℤ)) ≤ i then false
  else true

/-- `sprite.rs::is_walkable_cell`. -/
def is_walkable_cell (maze : Maze) (i j : ℤ) : Bool :=
  if !(in_bounds maze i j) then false
  else cellAt maze i.toNat j.toNat == ' ' || cellAt maze i.toNat j.toNat == 'R'

/-! ## Movement with axis sliding

`player.rs::process_events` (movement part) and both branches of
`sprite.rs::update_npcs` commit a candidate destination with the same code
shape: try the full move, otherwise try X with the original Y, then try Y
with the CURRENT (possibly already updated) X.  `slide_move` is that shared
shape, verbatim from the source. -/

/-- The sliding commit logic of `player.rs` lines 74-85 (identical shape in
`sprite.rs` lines 164-175 and 187-198): note the Y-axis test uses `px1`,
the possibly updated X coordinate, exactly as the source re-reads
`player.pos.x` / `npc.pos.x` after the X commit. -/
def slide_move (maze : Maze) (bs : ℕ) (px py nx ny : ℚ) : ℚ × ℚ :=
  if can_move_to maze nx ny bs then (nx, ny)
  else
    let px1 := if can_move_to maze nx py bs then nx else px
    let py1 := if can_move_to maze px1 ny bs then ny else py
    (px1, py1)

/-- Axis-order-swapped variant of `slide_move` (Y evaluated first, X against
the possibly updated Y); used to test the spec's order-independence claim. -/
def slide_move_yx (maze : Maze) (bs : ℕ) (px py nx ny : ℚ) : ℚ × ℚ :=
  if can_move_to maze nx ny bs then (nx, ny)
  else
    let py1 := if can_move_to maze px ny bs then ny else py
    let px1 := if can_move_to maze nx py1 bs then nx else px
    (px1, py1)

/-- Modelled from the spec's words (§4.4): "independently test and commit the
X-only and Y-only destinations - each axis is evaluated against the
*original* position, not against a partially updated one".  Used only to
compare the spec's description with the source's `slide_move`. -/
def slide_move_indep (maze : Maze) (bs : ℕ) (px py nx ny : ℚ) : ℚ × ℚ :=
  if can_move_to maze nx ny bs then (nx, ny)
  else
    ((if can_move_to maze nx py bs then nx else px),
     (if can_move_to maze px ny bs then ny else py))

/-- The movement part of `player.rs::process_events` (lines 69-86): the
requested displacement `(dx, dy)` is applied only when non-zero, with the
sliding fallback. -/
def process_events_move (maze : Maze) (bs : ℕ) (px py dx dy : ℚ) : ℚ × ℚ :=
  if dx == 0 && dy == 0 then (px, py)
  else slide_move maze bs px py (px + dx) (py + dy)

/-- One NPC position update of `sprite.rs::update_npcs`, parametric in the
candidate destination: `none` models the frames where the source does not
move the NPC (distance ≤ 1, or no line of sight and `next_step_bfs` returned
`None`), `some (nx, ny)` models both the direct-pursuit candidate and the
BFS-step candidate, which are committed by the identical sliding code. -/
def update_npc_move (maze : Maze) (bs : ℕ) (px py : ℚ) (cand : Option (ℚ × ℚ)) : ℚ × ℚ :=
  match cand with
  | none => (px, py)
  | some (nx, ny) => slide_move maze bs px py nx ny

/-! ## caster.rs: DDA ray casting

The source computes `ray_dir_x = a.cos()` and `ray_dir_y = a.sin()` and uses
the pair only through its components; the embedding takes the direction
components `rdx, rdy` as parameters (every angle yields such a pair, never
both zero).  `f32::INFINITY` (a zero component) is `none` in `Qinf`. -/

/-- Extended rationals: `none` models `f32::INFINITY`. -/
abbrev Qinf := Option ℚ

/-- Strict comparison on `Qinf` with `none` as `+∞` (matches IEEE comparison
for the values that occur in the caster). -/
def qinfLt : Qinf → Qinf → Bool
  | none, _ => false
  | some _, none => true
  | some a, some b => decide (a < b)

/-- Addition on `Qinf` (`+∞` absorbs). -/
def qinfAdd : Qinf → Qinf → Qinf
  | some a, some b => some (a + b)
  | _, _ => none

/-- Multiplication on `Qinf` (`+∞` absorbs; in the caster the finite factors
involved are positive, so this matches IEEE float behaviour). -/
def qinfMul : Qinf → Qinf → Qinf
  | some a, some b => some (a * b)
  | _, _ => none

/-- Scaling of a `Qinf` by a finite rational (used for the initial side
distances, where the scalar is the fractional cell offset in `(0, 1]`). -/
def qinfSmul (q : ℚ) : Qinf → Qinf
  | some a => some (q * a)
  | none => none

/-- `caster.rs` lines 37-38: distance between consecutive grid boundaries
along one axis, infinite for a zero direction component. -/
def deltaDist (rd : ℚ) : Qinf := if rd = 0 then none else some (1 / |rd|)

/-- `caster.rs` lines 46-59: step direction along one axis. -/
def stepDir (rd : ℚ) : ℤ := if rd < 0 then -1 else 1

/-- `caster.rs` lines 46-59: initial side distance along one axis, from the
fractional position inside the starting cell. -/
def initSideDist (pos : ℚ) (mapc : ℤ) (rd : ℚ) : Qinf :=
  if rd < 0 then qinfSmul (pos - (mapc : ℚ)) (deltaDist rd)
  else qinfSmul ((mapc : ℚ) + 1 - pos) (deltaDist rd)

/-- DDA state: current cell and side-distance accumulators. -/
structure DDA where
  mapx : ℤ
  mapy : ℤ
  sdx : Qinf
  sdy : Qinf
deriving Repr, DecidableEq

/-- Initial DDA state (`caster.rs` lines 33-59), with `pos` already in cell
units. -/
def ddaInit (posx posy rdx rdy : ℚ) : DDA :=
  { mapx := ⌊posx⌋, mapy := ⌊posy⌋
    sdx := initSideDist posx ⌊posx⌋ rdx
    sdy := initSideDist posy ⌊posy⌋ rdy }

/-- One DDA step (`caster.rs` lines 66-74): advance the axis with the smaller
accumulator.  Returns the new state, the side flag (`0` = stepped through a
vertical boundary, `1` = horizontal) and the PRE-increment accumulator of the
stepped axis (the source recovers it after the loop as
`side_dist - delta_dist`). -/
def ddaAdvance (rdx rdy : ℚ) (st : DDA) : DDA × ℕ × Qinf :=
  if qinfLt st.sdx st.sdy then
    ({ st with sdx := qinfAdd st.sdx (deltaDist rdx), mapx := st.mapx + stepDir rdx },
      0, st.sdx)
  else
    ({ st with sdy := qinfAdd st.sdy (deltaDist rdy), mapy := st.mapy + stepDir rdy },
      1, st.sdy)

/-- Grid-membership test of the loop body (`caster.rs` line 77), evaluated
after the negativity test of line 76. -/
def inGridB (maze : Maze) (i j : ℤ) : Bool :=
  decide (j.toNat < maze.length) && decide (i.toNat < (rowAt maze j.toNat).length)

/-- A cell blocks the ray iff its symbol is neither `' '` nor `'R'`
(`caster.rs` line 80: `'R'` marks agent spawns and never blocks). -/
def blockingB (maze : Maze) (i j : ℤ) : Bool :=
  !(cellAt maze i.toNat j.toNat == ' ') && !(cellAt maze i.toNat j.toNat == 'R')

/-- The bounded step budget of `caster.rs` line 64. -/
def maxSteps : ℕ := 2000

/-- The DDA loop (`caster.rs` lines 65-88).  `none` = no hit (the ray left
the grid or the budget ran out), `some (st, side, pre)` = hit at the cell of
`st`, entered through side `side`, with pre-increment accumulator `pre`. -/
def ddaLoop (maze : Maze) (rdx rdy : ℚ) : ℕ → DDA → Option (DDA × ℕ × Qinf)
  | 0, _ => none
  | fuel + 1, st =>
    let a := ddaAdvance rdx rdy st
    if a.1.mapy < 0 ∨ a.1.mapx < 0 then none
    else if inGridB maze a.1.mapx a.1.mapy then
      if blockingB maze a.1.mapx a.1.mapy then some a
      else ddaLoop maze rdx rdy fuel a.1
    else none

/-- The sequence of cells the DDA enters (with side flag and pre-increment
accumulator for each step), ending with the cell that stops the loop or when
the budget runs out. -/
def ddaTrace (maze : Maze) (rdx rdy : ℚ) : ℕ → DDA → List (ℤ × ℤ × ℕ × Qinf)
  | 0, _ => []
  | fuel + 1, st =>
    let a := ddaAdvance rdx rdy st
    (a.1.mapx, a.1.mapy, a.2.1, a.2.2) ::
      (if a.1.mapy < 0 ∨ a.1.mapx < 0 then []
       else if inGridB maze a.1.mapx a.1.mapy then
         if blockingB maze a.1.mapx a.1.mapy then []
         else ddaTrace maze rdx rdy fuel a.1
       else [])

/-- The hit record of `caster.rs` (`Intersect`). -/
structure Intersect where
  distance : Qinf
  impact : Char
  hit_x : Qinf
  hit_y : Qinf
  side : ℕ
deriving Repr, DecidableEq

/-- `caster.rs::cast_ray`: run the DDA from the player position (converted to
cell units); on a hit the perpendicular distance is the pre-increment
accumulator of the hit axis (`side_dist - delta_dist` in the source) scaled
back to world units; otherwise the sentinel hit. -/
def cast_ray (maze : Maze) (px py rdx rdy : ℚ) (block_size : ℕ) : Intersect :=
  let posx := px / (block_size : ℚ)
  let posy := py / (block_size : ℚ)
  match ddaLoop maze rdx rdy maxSteps (ddaInit posx posy rdx rdy) with
  | some (st, side, pre) =>
    let distance := qinfMul pre (some (block_size : ℚ))
    { distance := distance
      impact := cellAt maze st.mapx.toNat st.mapy.toNat
      hit_x := qinfAdd (some px) (qinfMul distance (some rdx))
      hit_y := qinfAdd (some py) (qinfMul distance (some rdy))
      side := side }
  | none =>
    { distance := some 2000, impact := ' ', hit_x := some px, hit_y := some py, side := 0 }

/-! ## sprite.rs: line of sight (Bresenham over grid cells) -/

/-- The traversal loop of `sprite.rs::line_of_sight` (lines 45-60).  The
source loop always terminates; the embedding takes explicit fuel and returns
`true` on exhaustion, so a `false` result always certifies a genuinely
blocked line. -/
def losLoop (maze : Maze) (x1 y1 dx dy sx sy : ℤ) : ℕ → ℤ → ℤ → ℤ → Bool
  | 0, _, _, _ => true
  | fuel + 1, x0, y0, err =>
    if !(is_walkable_cell maze x0 y0) then false
    else if x0 = x1 ∧ y0 = y1 then true
    else
      let e2 := 2 * err
      let err1 := if e2 ≥ dy then err + dy else err
      let x0n := if e2 ≥ dy then x0 + sx else x0
      let err2 := if e2 ≤ dx then err1 + dx else err1
      let y0n := if e2 ≤ dx then y0 + sy else y0
      losLoop maze x1 y1 dx dy sx sy fuel x0n y0n err2

/-- `sprite.rs::line_of_sight`: Bresenham cell walk from the agent's cell to
the viewer's cell; `true` iff every traversed cell is walkable. -/
def line_of_sight (maze : Maze) (from_x from_y to_x to_y : ℚ) (block_size : ℕ)
    (fuel : ℕ) : Bool :=
  let s := cell_indices_from_pos from_x from_y block_size
  let g := cell_indices_from_pos to_x to_y block_size
  let dx := |g.1 - s.1|
  let sx : ℤ := if s.1 < g.1 then 1 else -1
  let dy := -|g.2 - s.2|
  let sy : ℤ := if s.2 < g.2 then 1 else -1
  losLoop maze g.1 g.2 dx dy sx sy fuel s.1 s.2 (dx + dy)

/-! ## C8: totality of the geometry core

The checked variants below mirror the source functions statement by
statement, but perform every grid access (and the `usize` division of
`can_move_to`) through `Except`, producing an error exactly where the Rust
code would panic (out-of-bounds index, division by zero).  The claim theorem
shows they return `.ok` with the plain result on EVERY input - any jagged
maze, any origin, any direction, any positive block size - so every grid
access in the source is bounds-checked and no such input can panic. -/

/-- Checked list indexing: errors where Rust `l[i]` would panic. -/
def idxE {α : Type} (l : List α) (i : ℕ) : Except String α :=
  match l[i]? with
  | some a => .ok a
  | none => .error "index out of bounds"

/-- Checked natural division: errors where Rust `a / b` would panic. -/
def divE (a b : ℕ) : Except String ℕ :=
  if b = 0 then .error "division by zero" else .ok (a / b)

/-- Checked mirror of `player.rs::can_move_to`. -/
def can_move_toE (maze : Maze) (x y : ℚ) (block_size : ℕ) : Except String Bool :=
  if maze.isEmpty then .ok true
  else if x < 0 || y < 0 then .ok false
  else do
    let i ← divE ⌊x⌋₊ block_size
    let j ← divE ⌊y⌋₊ block_size
    if maze.length ≤ j then return false
    else do
      let row ← idxE maze j
      if row.isEmpty || row.length ≤ i then return false
      else do
        let c ← idxE row i
        return (c == ' ' || c == 'R')

/-- Checked mirror of `sprite.rs::is_walkable_cell`. -/
def is_walkable_cellE (maze : Maze) (i j : ℤ) : Except String Bool :=
  if !(in_bounds maze i j) then .ok false
  else do
    let row ← idxE maze j.toNat
    let c ← idxE row i.toNat
    return (c == ' ' || c == 'R')

/-- Checked mirror of the `line_of_sight` loop. -/
def losLoopE (maze : Maze) (x1 y1 dx dy sx sy : ℤ) :
    ℕ → ℤ → ℤ → ℤ → Except String Bool
  | 0, _, _, _ => .ok true
  | fuel + 1, x0, y0, err => do
    let w ← is_walkable_cellE maze x0 y0
    if !w then return false
    else if x0 = x1 ∧ y0 = y1 then return true
    else
      let e2 := 2 * err
      let err1 := if e2 ≥ dy then err + dy else err
      let x0n := if e2 ≥ dy then x0 + sx else x0
      let err2 := if e2 ≤ dx then err1 + dx else err1
      let y0n := if e2 ≤ dx then y0 + sy else y0
      losLoopE maze x1 y1 dx dy sx sy fuel x0n y0n err2

/-- Checked mirror of `sprite.rs::line_of_sight`. -/
def line_of_sightE (maze : Maze) (from_x from_y to_x to_y : ℚ) (block_size : ℕ)
    (fuel : ℕ) : Except String Bool :=
  let s := cell_indices_from_pos from_x from_y block_size
  let g := cell_indices_from_pos to_x to_y block_size
  let dx := |g.1 - s.1|
  let sx : ℤ := if s.1 < g.1 then 1 else -1
  let dy := -|g.2 - s.2|
  let sy : ℤ := if s.2 < g.2 then 1 else -1
  losLoopE maze g.1 g.2 dx dy sx sy fuel s.1 s.2 (dx + dy)

/-- Checked mirror of the DDA loop: the in-grid branch re-reads
`maze[map_y][map_x]` through checked indexing, exactly where `caster.rs`
line 79 indexes. -/
def ddaLoopE (maze : Maze) (rdx rdy : ℚ) :
    ℕ → DDA → Except String (Option (DDA × ℕ × Qinf))
  | 0, _ => .ok none
  | fuel + 1, st =>
    let a := ddaAdvance rdx rdy st
    if a.1.mapy < 0 ∨ a.1.mapx < 0 then .ok none
    else if inGridB maze a.1.mapx a.1.mapy then do
      let row ← idxE maze a.1.mapy.toNat
      let c ← idxE row a.1.mapx.toNat
      if !(c == ' ') && !(c == 'R') then return (some a)
      else ddaLoopE maze rdx rdy fuel a.1
    else .ok none

/-- Checked mirror of `caster.rs::cast_ray`; the post-loop re-indexing of
the hit cell (`caster.rs` line 103) also goes through checked access. -/
def cast_rayE (maze : Maze) (px py rdx rdy : ℚ) (block_size : ℕ) :
    Except String Intersect :=
  let posx := px / (block_size : ℚ)
  let posy := py / (block_size : ℚ)
  do
  match ← ddaLoopE maze rdx rdy maxSteps (ddaInit posx posy rdx rdy) with
  | some (st, side, pre) => do
    let row ← idxE maze st.mapy.toNat
    let c ← idxE row st.mapx.toNat
    let distance := qinfMul pre (some (block_size : ℚ))
    return { distance := distance
             impact := c
             hit_x := qinfAdd (some px) (qinfMul distance (some rdx))
             hit_y := qinfAdd (some py) (qinfMul distance (some rdy))
             side := side }
  | none =>
    return { distance := some 2000, impact := ' ', hit_x := some px,
             hit_y := some py, side := 0 }

/-! ## Basic facts about bounds and occupiability -/

/-! ## textures.rs -/

/-- RGBA colour with byte channels (`raylib::Color`). -/
structure Color where
  r : ℕ
  g : ℕ
  b : ℕ
  a : ℕ
deriving Repr, DecidableEq

/-- A decoded RGBA8 image (`textures.rs::ImageBuf`). -/
structure ImageBuf where
  w : ℕ
  h : ℕ
  data : List ℕ
deriving Repr, DecidableEq

/-- `textures.rs::TextureKind`. -/
inductive TextureKind
  | Wall
  | Pillar
  | DoorClosed
  | DoorOpen
deriving Repr, DecidableEq

/-- `textures.rs::TextureAtlas` (the image fields; loading is platform glue). -/
structure TextureAtlas where
  wall : Option ImageBuf
  pillar : Option ImageBuf
  npc : Option ImageBuf
  sky : Option ImageBuf
  floor : Option ImageBuf
  menu : Option ImageBuf
  game_over : Option ImageBuf
  coin : Option ImageBuf
  door_closed : Option ImageBuf
  door_open : Option ImageBuf

/-- The image selected by `TextureAtlas::sample` for a texture kind. -/
def atlasImage (t : TextureAtlas) : TextureKind → Option ImageBuf
  | .Wall => t.wall
  | .Pillar => t.pillar
  | .DoorClosed => t.door_closed
  | .DoorOpen => t.door_open

/-- Rust `u.fract().abs()` (fractional part toward zero, then absolute value). -/
def fractAbs (q : ℚ) : ℚ := |q - (ratTrunc q : ℚ)|

/-- Rust `(x) as u8` on a float: truncate toward zero, saturate to `[0,255]`. -/
def toU8 (q : ℚ) : ℕ := min 255 (Int.toNat (ratTrunc q))

/-- Linear interpolation (`textures.rs` line 348). -/
def lerp (a b t : ℚ) : ℚ := a + (b - a) * t

/-- The `sample_pixel` closure of `TextureAtlas::sample` (textures.rs lines
329-340): channels normalised to `[0,1]`; a source alpha of exactly `0` is
replaced by `1` (fully transparent treated as opaque), and an out-of-range
index yields opaque black. -/
def sample_pixel (img : ImageBuf) (xx yy : ℕ) : ℚ × ℚ × ℚ × ℚ :=
  let idx := (yy * img.w + xx) * 4
  if idx + 3 < img.data.length then
    let r := (img.data.getD idx 0 : ℚ) / 255
    let g := (img.data.getD (idx + 1) 0 : ℚ) / 255
    let b := (img.data.getD (idx + 2) 0 : ℚ) / 255
    let a := (img.data.getD (idx + 3) 0 : ℚ) / 255
    (r, g, b, if a = 0 then 1 else a)
  else (0, 0, 0, 1)

/-- Bilinear filtering of `TextureAtlas::sample` (textures.rs lines 317-363):
clamped sample coordinates, four corner fetches, horizontal then vertical
interpolation. -/
def bilinear (img : ImageBuf) (u v : ℚ) : ℚ × ℚ × ℚ × ℚ :=
  let fw : ℚ := ((img.w - 1 : ℕ) : ℚ)
  let fh : ℚ := ((img.h - 1 : ℕ) : ℚ)
  let xf := min (max (u * fw) 0) fw
  let yf := min (max (v * fh) 0) fh
  let x0 := ⌊xf⌋₊
  let y0 := ⌊yf⌋₊
  let x1 := min (x0 + 1) (img.w - 1)
  let y1 := min (y0 + 1) (img.h - 1)
  let sx := xf - (x0 : ℚ)
  let sy := yf - (y0 : ℚ)
  let p00 := sample_pixel img x0 y0
  let p10 := sample_pixel img x1 y0
  let p01 := sample_pixel img x0 y1
  let p11 := sample_pixel img x1 y1
  (lerp (lerp p00.1 p10.1 sx) (lerp p01.1 p11.1 sx) sy,
   lerp (lerp p00.2.1 p10.2.1 sx) (lerp p01.2.1 p11.2.1 sx) sy,
   lerp (lerp p00.2.2.1 p10.2.2.1 sx) (lerp p01.2.2.1 p11.2.2.1 sx) sy,
   lerp (lerp p00.2.2.2 p10.2.2.2 sx) (lerp p01.2.2.2 p11.2.2.2 sx) sy)

/-- The deterministic checkerboard fallback of `TextureAtlas::sample`
(textures.rs lines 378-386). -/
def checkerboard (u v : ℚ) : Color :=
  let uu := ratTrunc (u * 8)
  let vv := ratTrunc (v * 8)
  if (uu + vv) % 2 = 0 then ⟨200, 180, 160, 255⟩ else ⟨140, 120, 100, 255⟩

/-- `textures.rs::TextureAtlas::sample` (wall/pillar/door sampling): bilinear
fetch with the transparent-as-opaque pixel rule, falling back to the
checkerboard when the image is missing or degenerate, and also when the
filtered colour is pure black. -/
def sample (t : TextureAtlas) (kind : TextureKind) (u v : ℚ) : Color :=
  let uf := fractAbs u
  let vf := fractAbs v
  match atlasImage t kind with
  | some img =>
    if 4 ≤ img.data.length then
      let p := bilinear img uf vf
      let out_r := toU8 (p.1 * 255)
      let out_g := toU8 (p.2.1 * 255)
      let out_b := toU8 (p.2.2.1 * 255)
      let out_a := toU8 (p.2.2.2 * 255)
      if out_r = 0 ∧ out_g = 0 ∧ out_b = 0 then checkerboard uf vf
      else ⟨out_r, out_g, out_b, out_a⟩
    else checkerboard uf vf
  | none => checkerboard uf vf

/-- `textures.rs::TextureAtlas::sample_npc`: nearest-pixel fetch that returns
the raw RGBA bytes (true alpha preserved), `none` when the sprite image is
missing or the index falls outside the data. -/
def sample_npc (t : TextureAtlas) (u v : ℚ) : Option Color :=
  let uf := fractAbs u
  let vf := fractAbs v
  match t.npc with
  | some img =>
    if 4 ≤ img.data.length then
      let x := ⌊min (max (uf * (img.w : ℚ)) 0) (((img.w - 1 : ℕ)) : ℚ)⌋₊
      let y := ⌊min (max (vf * (img.h : ℚ)) 0) (((img.h - 1 : ℕ)) : ℚ)⌋₊
      let idx := (y * img.w + x) * 4
      if idx + 3 < img.data.length then
        some ⟨img.data.getD idx 0, img.data.getD (idx + 1) 0,
              img.data.getD (idx + 2) 0, img.data.getD (idx + 3) 0⟩
      else none
    else none
  | none => none

/-- `textures.rs::TextureAtlas::sample_coin`: like `sample_npc` but sampling
inside the sprite-sheet frame selected by the animation time.  The frame
X offset (`CoinAnimation::get_frame_offset`, a multiple of the frame width
derived from the animation time via `2π/12`, which is not a rational) is
taken as a parameter; every property proved below holds for all offsets. -/
def sample_coin (t : TextureAtlas) (u v : ℚ) (frame_x_offset : ℕ) : Option Color :=
  let uf := fractAbs u
  let vf := fractAbs v
  match t.coin with
  | some img =>
    if 4 ≤ img.data.length then
      let frame_width := img.w / 12
      let frame_height := img.h
      let x := ⌊min (max (uf * (frame_width : ℚ)) 0) (((frame_width - 1 : ℕ)) : ℚ)⌋₊
          + frame_x_offset
      let y := ⌊min (max (vf * (frame_height : ℚ)) 0) (((frame_height - 1 : ℕ)) : ℚ)⌋₊
      let idx := (y * img.w + x) * 4
      if idx + 3 < img.data.length then
        some ⟨img.data.getD idx 0, img.data.getD (idx + 1) 0,
              img.data.getD (idx + 2) 0, img.data.getD (idx + 3) 0⟩
      else none
    else none
  | none => none

/-! ## renderer.rs: sprite passes with depth-buffer occlusion -/

/-- The inclusive integer range `a..=b` of a Rust `for` loop. -/
def intRange (a b : ℤ) : List ℤ := (List.range (b + 1 - a).toNat).map (fun k => a + k)

/-- The NPC sprite pass of `renderer.rs::render_world` (lines 184-202) for
one sprite, as the list of `(pixel column, row, colour)` writes it performs.
`depth` is the per-column depth buffer built by the wall pass (its length is
`num_rays`); `dist` the sprite's straight-line distance to the viewer.  A
column is skipped when the pixel column is negative, when its depth-buffer
column (pixel column divided by `column_step`) is out of range, or when
`dist > depth[col] - 1.0` (the occlusion test with tolerance `1.0`). -/
def npcSpriteWrites (t : TextureAtlas) (depth : List ℚ) (column_step : ℕ)
    (fbH : ℕ) (dist : ℚ) (sx half w top bottom : ℤ) : List (ℤ × ℤ × Color) :=
  (intRange (-half) half).flatMap fun xoff =>
    let px := sx + xoff
    if px < 0 then []
    else
      let col_idx := px.toNat / column_step
      if depth.length ≤ col_idx then []
      else if depth.getD col_idx 0 - 1 < dist then []
      else
        (intRange (max top 0) (min bottom ((fbH : ℤ) - 1))).filterMap fun (y : ℤ) =>
          let v := ((y : ℚ) - (top : ℚ)) / ((bottom : ℚ) - (top : ℚ) + 1)
          let u := ((xoff + half : ℤ) : ℚ) / ((w : ℤ) : ℚ)
          match sample_npc t u v with
          | some col => if 16 < col.a then some (px, y, col) else none
          | none => none

/-- The collectible sprite pass of `renderer.rs::render_world` (lines
206-247) for one coin: skipped entirely when collected, otherwise the same
column loop with the same occlusion test and the higher alpha threshold 64.
`top`/`bottom` already include the animation float offset, and
`frame_x_offset` the animation frame (both derived from the animation time
through `sin`/`π`; the properties below hold for every value). -/
def coinSpriteWrites (t : TextureAtlas) (depth : List ℚ) (column_step : ℕ)
    (fbH : ℕ) (collected : Bool) (dist : ℚ) (sx half w top bottom : ℤ)
    (frame_x_offset : ℕ) : List (ℤ × ℤ × Color) :=
  if collected then []
  else
    (intRange (-half) half).flatMap fun xoff =>
      let px := sx + xoff
      if px < 0 then []
      else
        let col_idx := px.toNat / column_step
        if depth.length ≤ col_idx then []
        else if depth.getD col_idx 0 - 1 < dist then []
        else
          (intRange (max top 0) (min bottom ((fbH : ℤ) - 1))).filterMap fun (y : ℤ) =>
            let v := ((y : ℚ) - (top : ℚ)) / ((bottom : ℚ) - (top : ℚ) + 1)
            let u := ((xoff + half : ℤ) : ℚ) / ((w : ℤ) : ℚ)
            match sample_coin t u v frame_x_offset with
            | some col => if 64 < col.a then some (px, y, col) else none
            | none => none

/-! ## sprite.rs: BFS pathfinding (`next_step_bfs`) -/

/-- A grid cell, `(i, j)` = (column, row). -/
abbrev Cell := ℤ × ℤ

/-- The neighbour order of the BFS (`sprite.rs` line 87): `+X, -X, +Y, -Y`. -/
def dirs : List Cell := [(1, 0), (-1, 0), (0, 1), (0, -1)]

/-- BFS working state: the FIFO queue (front at the head), the visited set
and the parent map (`visited`/`parent` of the source; the per-row boolean
and parent arrays, which the source only reads behind `in_bounds` checks,
are represented as a membership list and an association list). -/
structure BfsState where
  queue : List Cell
  visited : List Cell
  parent : List (Cell × Cell)

/-- One neighbour inspection of the BFS inner loop (`sprite.rs` lines
91-100): skip when out of bounds, already visited, or not walkable;
otherwise mark visited, record the parent and push onto the queue. -/
def tryVisit (maze : Maze) (c : Cell) (st : BfsState) (d : Cell) : BfsState :=
  let n : Cell := (c.1 + d.1, c.2 + d.2)
  if !(in_bounds maze n.1 n.2) then st
  else if st.visited.contains n then st
  else if !(is_walkable_cell maze n.1 n.2) then st
  else ⟨st.queue ++ [n], n :: st.visited, (n, c) :: st.parent⟩

/-- Expansion of one dequeued cell over the four directions in order. -/
def expand (maze : Maze) (c : Cell) (st : BfsState) : BfsState :=
  dirs.foldl (tryVisit maze c) st

/-- All in-bounds cells of the (jagged) grid. -/
def allCells (maze : Maze) : List Cell :=
  (List.range maze.length).flatMap
    (fun j => (List.range (rowAt maze j).length).map
      (fun i => (Int.ofNat i, Int.ofNat j)))

/-- Total number of grid cells. -/
def numCells (maze : Maze) : ℕ := (allCells maze).length

/-- Fuel for the BFS loop; the termination argument (`bfsLoop_reaches`)
shows the source's unbounded `while` never needs more. -/
def bfsFuel (maze : Maze) : ℕ := 2 * numCells maze + 2

/-- The BFS main loop (`sprite.rs` lines 89-101): pop the front cell, stop
when it is the goal, otherwise expand its neighbours. -/
def bfsLoop (maze : Maze) (g : Cell) : ℕ → BfsState → BfsState
  | 0, st => st
  | fuel + 1, st =>
    match st.queue with
    | [] => st
    | c :: rest =>
      if c = g then { st with queue := rest }
      else bfsLoop maze g fuel (expand maze c { st with queue := rest })

/-- The parent-chain walk of the path reconstruction (`sprite.rs` lines
106-111): follow parents from the goal until the parent is the start
(returning the current cell, the first step after the start) or missing
(the `(-1,-1)` sentinel of the source). -/
def reconstruct (parent : List (Cell × Cell)) (s : Cell) : ℕ → Cell → Cell
  | 0, cur => cur
  | fuel + 1, cur =>
    match List.lookup cur parent with
    | none => cur
    | some p => if p = s then cur else reconstruct parent s fuel p

/-- `sprite.rs::next_step_bfs`: `none` when start and goal cells coincide,
either of them is out of bounds, the goal cell is not walkable, or the BFS
never reaches the goal; otherwise the centre of the first path cell after
the start. -/
def next_step_bfs (maze : Maze) (from_x from_y to_x to_y : ℚ) (block_size : ℕ) :
    Option (ℚ × ℚ) :=
  let s := cell_indices_from_pos from_x from_y block_size
  let g := cell_indices_from_pos to_x to_y block_size
  if s = g then none
  else if !(in_bounds maze s.1 s.2) || !(in_bounds maze g.1 g.2) then none
  else if !(is_walkable_cell maze g.1 g.2) then none
  else
    let stF := bfsLoop maze g (bfsFuel maze) ⟨[s], [s], []⟩
    if !(stF.visited.contains g) then none
    else
      let cur := reconstruct stF.parent s (numCells maze + 1) g
      some (((cur.1 : ℚ) + 1 / 2) * (block_size : ℚ),
            ((cur.2 : ℚ) + 1 / 2) * (block_size : ℚ))

/-! ## The walk graph used to state BFS correctness

An edge goes from any cell to a 4-adjacent walkable cell, exactly the moves
the BFS expansion performs; paths require every cell after the start to be
walkable (the source never requires the START cell to be walkable). -/

/-- The four neighbours of a cell, in expansion order. -/
def nbrs (c : Cell) : List Cell := dirs.map (fun d => (c.1 + d.1, c.2 + d.2))

/-- One admissible step: to a 4-adjacent walkable cell. -/
def edgeB (maze : Maze) (c n : Cell) : Bool :=
  (nbrs c).contains n && is_walkable_cell maze n.1 n.2

/-- `isChain maze s p g` holds when `p` lists the cells after `s` of a walk
from `s` to `g` (so `p = []` means `s = g`, and `p`'s last element is `g`). -/
def isChain (maze : Maze) : Cell → List Cell → Cell → Bool
  | s, [], g => s == g
  | s, c :: p, g => edgeB maze s c && isChain maze c p g

/-- There is a walk from `s` to `g` of length at most `n`. -/
def distLE (maze : Maze) (s g : Cell) (n : ℕ) : Prop :=
  ∃ p, isChain maze s p g = true ∧ p.length ≤ n

/-- `L` is the length of a shortest walk from `s` to `g`: attained, and a
lower bound of every walk length. -/
def isShortest (maze : Maze) (s g : Cell) (L : ℕ) : Prop :=
  (∃ p, isChain maze s p g = true ∧ p.length = L) ∧
  ∀ p, isChain maze s p g = true → L ≤ p.length

/-- The weak BFS invariant: survives the goal-break and is what the path
reconstruction needs - every visited cell is reachable, parent entries are
edges between visited cells recorded with exact shortest distances, keys
are unique, and every visited cell except the start has a parent. -/
structure BfsWInv (maze : Maze) (s : Cell) (st : BfsState) : Prop where
  hsv : s ∈ st.visited
  hreach : ∀ v ∈ st.visited, ∃ p, isChain maze s p v = true
  hpv : ∀ pr ∈ st.parent, pr.1 ∈ st.visited ∧ pr.2 ∈ st.visited ∧
    edgeB maze pr.2 pr.1 = true ∧ pr.1 ≠ s
  hpkeys : (st.parent.map Prod.fst).Nodup
  hpdist : ∀ pr ∈ st.parent, ∃ k, isShortest maze s pr.2 k ∧ isShortest maze s pr.1 (k + 1)
  hpcover : ∀ v ∈ st.visited, v ≠ s → (List.lookup v st.parent).isSome = true

/-- The full BFS invariant: the weak one plus queue discipline - the queue
is a prefix at level `d` followed by a suffix at level `d + 1`, dequeued
cells have all their successors visited, and every cell within distance `d`
is already visited. -/
structure BfsInv (maze : Maze) (s : Cell) (st : BfsState) (d : ℕ) : Prop where
  w : BfsWInv maze s st
  hqv : ∀ c ∈ st.queue, c ∈ st.visited
  hvnd : st.visited.Nodup
  hqnd : st.queue.Nodup
  hvcells : ∀ v ∈ st.visited, v = s ∨ in_bounds maze v.1 v.2 = true
  hdone : ∀ c ∈ st.visited, c ∉ st.queue → ∀ n, edgeB maze c n = true → n ∈ st.visited
  hlevel : ∃ qa qb, st.queue = qa ++ qb ∧
    (∀ x ∈ qa, isShortest maze s x d) ∧ (∀ x ∈ qb, isShortest maze s x (d + 1))
  hcomp : ∀ u, distLE maze s u d → u ∈ st.visited

/-- Mid-expansion invariant: `BfsInv` with the dequeued-cell obligation
relaxed for the cell `c` currently being expanded. -/
structure BfsMidInv (maze : Maze) (s : Cell) (c : Cell) (st : BfsState) (d : ℕ) : Prop where
  w : BfsWInv maze s st
  hqv : ∀ x ∈ st.queue, x ∈ st.visited
  hvnd : st.visited.Nodup
  hqnd : st.queue.Nodup
  hvcells : ∀ v ∈ st.visited, v = s ∨ in_bounds maze v.1 v.2 = true
  hdone : ∀ x ∈ st.visited, x ∉ st.queue → x = c ∨ ∀ n, edgeB maze x n = true → n ∈ st.visited
  hlevel : ∃ qa qb, st.queue = qa ++ qb ∧
    (∀ x ∈ qa, isShortest maze s x d) ∧ (∀ x ∈ qb, isShortest maze s x (d + 1))
  hcomp : ∀ u, distLE maze s u d → u ∈ st.visited

/-- Termination measure of the BFS loop. -/
def bfsMeasure (maze : Maze) (st : BfsState) : ℕ :=
  st.queue.length + 2 * (numCells maze + 1 - st.visited.length)

/-! ## Minimap fog of war

Modelled from the spec: the fog-aware `render_minimap` is code of this
repository that is not among the provided sources - `main.rs` line 277 calls
a ten-argument `render_minimap` taking `&coins` and `&mut discovered`, while
the provided `minimap.rs` defines an eight-argument version without either -
so the fog-of-war behaviour is modelled from the spec (§3 "Discovered grid",
§4.5): before drawing, reveal every discovered-grid cell within a fixed
radius of the viewer's cell and never unreveal; undiscovered cells render as
a uniform fog colour block, discovered ones as per-symbol colour blocks
(palette from `minimap.rs` lines 56-62); agent markers are drawn only when
the agent's occupying cell is discovered. -/

/-- Chebyshev distance between grid cells. -/
def chebyshev (a b : ℤ × ℤ) : ℤ := max |a.1 - b.1| |a.2 - b.2|

/-- Modelled from the spec: one frame's fog reveal - every cell within the
radius of the viewer's cell becomes discovered, nothing is unrevealed. -/
def reveal (disc : ℤ × ℤ → Bool) (viewer : ℤ × ℤ) (radius : ℤ) : (ℤ × ℤ) → Bool :=
  fun c => disc c || decide (chebyshev c viewer ≤ radius)

/-- Modelled from the spec: the discovered grid after a sequence of frames
with the given viewer cells. -/
def revealSeq (radius : ℤ) : List (ℤ × ℤ) → ((ℤ × ℤ) → Bool) → ((ℤ × ℤ) → Bool)
  | [], disc => disc
  | viewer :: rest, disc => revealSeq radius rest (reveal disc viewer radius)

/-- The uniform fog colour block for undiscovered cells. -/
def fogColor : Color := ⟨20, 20, 30, 255⟩

/-- Per-symbol minimap cell colours (`minimap.rs` lines 56-62). -/
def symbolColor : Char → Color
  | '+' | '-' | '|' => ⟨40, 40, 50, 255⟩
  | 'g' => ⟨0, 228, 48, 255⟩
  | _ => ⟨230, 230, 230, 255⟩

/-- Modelled from the spec: the colour block drawn for a minimap cell -
uniform fog when undiscovered, the per-symbol colour when discovered. -/
def minimapCellColor (maze : Maze) (disc : ℤ × ℤ → Bool) (c : ℤ × ℤ) : Color :=
  if !(disc c) then fogColor else symbolColor (cellAt maze c.1.toNat c.2.toNat)

/-- Modelled from the spec: an agent marker is drawn iff the agent's
occupying cell is discovered. -/
def npcMarkerDrawn (disc : ℤ × ℤ → Bool) (npcCell : ℤ × ℤ) : Bool := disc npcCell

theorem in_bounds_iff (maze : Maze) (i j : ℤ) :
    in_bounds maze i j = true ↔
      0 ≤ j ∧ j < (maze.length : ℤ) ∧ 0 ≤ i ∧ i < ((rowAt maze j.toNat).length : ℤ) := by
  unfold in_bounds
  split_ifs with h1 h2 h3
  · simp only [false_iff]; omega
  · simp only [false_iff]; omega
  · simp only [Bool.or_eq_true, decide_eq_true_eq] at h3
    simp only [false_iff]
    omega
  · simp only [Bool.or_eq_true, decide_eq_true_eq, not_or, not_lt, not_le] at h1 h2 h3
    simp only [true_iff]
    omega

/-! ## Caster lemmas -/

theorem ddaAdvance_spec (rdx rdy : ℚ) (hdir : ¬(rdx = 0 ∧ rdy = 0)) (st : DDA)
    (hx : st.sdx = none ↔ rdx = 0) (hy : st.sdy = none ↔ rdy = 0) :
    ((ddaAdvance rdx rdy st).1.sdx = none ↔ rdx = 0) ∧
    ((ddaAdvance rdx rdy st).1.sdy = none ↔ rdy = 0) ∧
    ∃ q : ℚ, (ddaAdvance rdx rdy st).2.2 = some q := by
  by_cases hlt : qinfLt st.sdx st.sdy = true
  · rcases hsx : st.sdx with _ | a
    · rw [hsx] at hlt
      simp [qinfLt] at hlt
    · unfold ddaAdvance
      rw [if_pos hlt, hsx]
      dsimp only
      refine ⟨?_, hy, ⟨a, rfl⟩⟩
      by_cases hz : rdx = 0 <;> simp [qinfAdd, deltaDist, hz]
  · rcases hsy : st.sdy with _ | b
    · exfalso
      have hrdy : rdy = 0 := hy.mp hsy
      have hrdx : rdx ≠ 0 := fun hcon => hdir ⟨hcon, hrdy⟩
      rcases hsx : st.sdx with _ | a
      · exact hrdx (hx.mp hsx)
      · rw [hsx, hsy] at hlt
        simp [qinfLt] at hlt
    · unfold ddaAdvance
      rw [if_neg hlt, hsy]
      dsimp only
      refine ⟨hx, ?_, ⟨b, rfl⟩⟩
      by_cases hz : rdy = 0 <;> simp [qinfAdd, deltaDist, hz]

theorem ddaLoop_trace_spec (maze : Maze) (rdx rdy : ℚ) (hdir : ¬(rdx = 0 ∧ rdy = 0)) :
    ∀ fuel : ℕ, ∀ st : DDA,
      (st.sdx = none ↔ rdx = 0) → (st.sdy = none ↔ rdy = 0) →
      ∀ st1 side pre, ddaLoop maze rdx rdy fuel st = some (st1, side, pre) →
        (∃ q : ℚ, pre = some q) ∧
        0 ≤ st1.mapx ∧ 0 ≤ st1.mapy ∧
        inGridB maze st1.mapx st1.mapy = true ∧
        blockingB maze st1.mapx st1.mapy = true ∧
        ∃ pref, ddaTrace maze rdx rdy fuel st = pref ++ [(st1.mapx, st1.mapy, side, pre)] ∧
          ∀ e ∈ pref, 0 ≤ e.1 ∧ 0 ≤ e.2.1 ∧
            inGridB maze e.1 e.2.1 = true ∧ blockingB maze e.1 e.2.1 = false := by
  intro fuel
  induction fuel with
  | zero =>
    intro st _ _ st1 side pre h
    simp [ddaLoop] at h
  | succ n ih =>
    intro st hx hy st1 side pre h
    obtain ⟨hx1, hy1, q0, hq0⟩ := ddaAdvance_spec rdx rdy hdir st hx hy
    simp only [ddaLoop] at h
    split_ifs at h with g1 g2 g3
    · -- hit at the newly entered cell
      rw [Option.some.injEq] at h
      have h1 : (ddaAdvance rdx rdy st).1 = st1 := congrArg Prod.fst h
      have h2 : (ddaAdvance rdx rdy st).2.1 = side := congrArg (fun p => p.2.1) h
      have h3 : (ddaAdvance rdx rdy st).2.2 = pre := congrArg (fun p => p.2.2) h
      have g1' := g1
      push_neg at g1'
      refine ⟨⟨q0, by rw [← h3, hq0]⟩, by rw [← h1]; omega, by rw [← h1]; omega,
        h1 ▸ g2, h1 ▸ g3, ?_⟩
      refine ⟨[], ?_, by simp⟩
      simp only [ddaTrace]
      rw [if_neg g1, if_pos g2, if_pos g3, h1, h2, h3]
      simp
    · -- continue stepping
      have hrec := ih (ddaAdvance rdx rdy st).1 hx1 hy1 st1 side pre h
      obtain ⟨hfin, hx0, hy0, hgrid, hblock, pref, htr, hpref⟩ := hrec
      have g1' := g1
      push_neg at g1'
      refine ⟨hfin, hx0, hy0, hgrid, hblock,
        ⟨((ddaAdvance rdx rdy st).1.mapx, (ddaAdvance rdx rdy st).1.mapy,
          (ddaAdvance rdx rdy st).2.1, (ddaAdvance rdx rdy st).2.2) :: pref, ?_, ?_⟩⟩
      · simp only [ddaTrace]
        rw [if_neg g1, if_pos g2, if_neg g3, htr]
        simp
      · intro e he
        rcases List.mem_cons.mp he with rfl | he2
        · dsimp only
          exact ⟨by omega, by omega, g2, by simpa using g3⟩
        · exact hpref e he2

theorem ddaInit_inv (posx posy rdx rdy : ℚ) :
    ((ddaInit posx posy rdx rdy).sdx = none ↔ rdx = 0) ∧
    ((ddaInit posx posy rdx rdy).sdy = none ↔ rdy = 0) := by
  constructor
  · show initSideDist posx ⌊posx⌋ rdx = none ↔ rdx = 0
    unfold initSideDist deltaDist
    by_cases hz : rdx = 0
    · simp [hz, qinfSmul]
    · split_ifs <;> simp_all [qinfSmul]
  · show initSideDist posy ⌊posy⌋ rdy = none ↔ rdy = 0
    unfold initSideDist deltaDist
    by_cases hz : rdy = 0
    · simp [hz, qinfSmul]
    · split_ifs <;> simp_all [qinfSmul]

/-- Claim C3: whenever the DDA finds a hit, the hit cell is in bounds and its
symbol is neither `' '` nor `'R'` (agent markers never block); every cell the
ray entered before it was in bounds and non-blocking (so the hit is the FIRST
entered blocking cell); and `cast_ray` reports side `0` for a
vertical-boundary step, side `1` for a horizontal-boundary step, and distance
equal to the pre-increment side-distance accumulator of the hit axis times
the cell size. -/
theorem cast_ray_hits_first_blocker (maze : Maze) (px py rdx rdy : ℚ) (bs : ℕ)
    (hbs : 0 < bs) (hdir : ¬(rdx = 0 ∧ rdy = 0)) :
    ∀ st1 side pre,
      ddaLoop maze rdx rdy maxSteps
          (ddaInit (px / (bs : ℚ)) (py / (bs : ℚ)) rdx rdy) = some (st1, side, pre) →
      ∃ q : ℚ, pre = some q ∧
        cast_ray maze px py rdx rdy bs =
          { distance := some (q * (bs : ℚ))
            impact := cellAt maze st1.mapx.toNat st1.mapy.toNat
            hit_x := some (px + q * (bs : ℚ) * rdx)
            hit_y := some (py + q * (bs : ℚ) * rdy)
            side := side } ∧
        0 ≤ st1.mapx ∧ 0 ≤ st1.mapy ∧
        inGridB maze st1.mapx st1.mapy = true ∧
        cellAt maze st1.mapx.toNat st1.mapy.toNat ≠ ' ' ∧
        cellAt maze st1.mapx.toNat st1.mapy.toNat ≠ 'R' ∧
        ∃ pref,
          ddaTrace maze rdx rdy maxSteps
              (ddaInit (px / (bs : ℚ)) (py / (bs : ℚ)) rdx rdy) =
            pref ++ [(st1.mapx, st1.mapy, side, pre)] ∧
          ∀ e ∈ pref, 0 ≤ e.1 ∧ 0 ≤ e.2.1 ∧
            inGridB maze e.1 e.2.1 = true ∧ blockingB maze e.1 e.2.1 = false := by
  intro st1 side pre hloop
  obtain ⟨hinitx, hinity⟩ := ddaInit_inv (px / (bs : ℚ)) (py / (bs : ℚ)) rdx rdy
  obtain ⟨⟨q, hq⟩, hx0, hy0, hgrid, hblock, pref, htr, hpref⟩ :=
    ddaLoop_trace_spec maze rdx rdy hdir maxSteps _ hinitx hinity st1 side pre hloop
  refine ⟨q, hq, ?_, hx0, hy0, hgrid, ?_, ?_, pref, htr, hpref⟩
  · rw [hq] at hloop
    simp only [cast_ray]
    rw [hloop]
    dsimp only
    simp only [qinfMul, qinfAdd]
  · intro hc
    rw [blockingB, hc] at hblock
    simp at hblock
  · intro hc
    rw [blockingB, hc] at hblock
    simp at hblock

theorem ddaLoop_succ_hit (maze : Maze) (rdx rdy : ℚ) (fuel : ℕ) (st : DDA)
    (h1 : ¬((ddaAdvance rdx rdy st).1.mapy < 0 ∨ (ddaAdvance rdx rdy st).1.mapx < 0))
    (h2 : inGridB maze (ddaAdvance rdx rdy st).1.mapx (ddaAdvance rdx rdy st).1.mapy = true)
    (h3 : blockingB maze (ddaAdvance rdx rdy st).1.mapx (ddaAdvance rdx rdy st).1.mapy = true) :
    ddaLoop maze rdx rdy (fuel + 1) st = some (ddaAdvance rdx rdy st) := by
  simp only [ddaLoop]
  rw [if_neg h1, if_pos h2, if_pos h3]

/-- Witness for C3: a ray fired along `+X` from the open cell of
`[[' ', '#']]` hits the wall cell with side `0` and distance `(1/2) * 10`. -/
theorem cast_ray_hits_first_blocker_witness :
    (cast_ray [[' ', '#']] 5 5 1 0 10).distance = some 5 ∧
    (cast_ray [[' ', '#']] 5 5 1 0 10).side = 0 ∧
    (cast_ray [[' ', '#']] 5 5 1 0 10).impact = '#' := by
  have hadv : ddaAdvance 1 0 (ddaInit ((5 : ℚ) / ((10 : ℕ) : ℚ)) ((5 : ℚ) / ((10 : ℕ) : ℚ)) 1 0) =
      (⟨1, 0, some (3 / 2), none⟩, 0, some (1 / 2)) := by
    norm_num [ddaAdvance, ddaInit, initSideDist, deltaDist, stepDir, qinfLt, qinfAdd, qinfSmul]
  have hloop : ddaLoop [[' ', '#']] 1 0 maxSteps
      (ddaInit ((5 : ℚ) / ((10 : ℕ) : ℚ)) ((5 : ℚ) / ((10 : ℕ) : ℚ)) 1 0) =
      some (⟨1, 0, some (3 / 2), none⟩, 0, some (1 / 2)) := by
    rw [show maxSteps = 1999 + 1 from rfl,
        ddaLoop_succ_hit [[' ', '#']] 1 0 1999 _ (by rw [hadv]; norm_num)
          (by rw [hadv]; decide) (by rw [hadv]; decide), hadv]
  obtain ⟨q, hq, hcast, -, -, -, -, -, -⟩ :=
    cast_ray_hits_first_blocker [[' ', '#']] 5 5 1 0 10 (by norm_num)
      (by norm_num) ⟨1, 0, some (3 / 2), none⟩ 0 (some (1 / 2)) hloop
  obtain rfl : (1 / 2 : ℚ) = q := Option.some.inj hq
  rw [hcast]
  refine ⟨?_, rfl, by decide⟩
  norm_num

theorem ddaLoop_none_of_open (maze : Maze) (rdx rdy : ℚ)
    (hopen : ∀ row ∈ maze, ∀ c ∈ row, c = ' ' ∨ c = 'R') :
    ∀ fuel st, ddaLoop maze rdx rdy fuel st = none := by
  intro fuel
  induction fuel with
  | zero => intro st; simp [ddaLoop]
  | succ n ih =>
    intro st
    simp only [ddaLoop]
    split_ifs with g1 g2 g3
    · rfl
    · exfalso
      obtain ⟨hj, hi⟩ : ((ddaAdvance rdx rdy st).1.mapy).toNat < maze.length ∧
          ((ddaAdvance rdx rdy st).1.mapx).toNat <
            (rowAt maze ((ddaAdvance rdx rdy st).1.mapy).toNat).length := by
        simpa [inGridB] using g2
      have hrow : rowAt maze ((ddaAdvance rdx rdy st).1.mapy).toNat ∈ maze := by
        rw [rowAt, List.getD_eq_getElem _ _ hj]
        exact List.getElem_mem _
      have hcell : cellAt maze ((ddaAdvance rdx rdy st).1.mapx).toNat
          ((ddaAdvance rdx rdy st).1.mapy).toNat ∈
          rowAt maze ((ddaAdvance rdx rdy st).1.mapy).toNat := by
        rw [cellAt, List.getD_eq_getElem _ _ hi]
        exact List.getElem_mem _
      rcases hopen _ hrow _ hcell with hc | hc <;>
        simp [blockingB, hc] at g3
    · exact ih _
    · rfl

/-- Claim C4: when the DDA finds no blocking cell (budget exhausted or the
ray left the grid) `cast_ray` returns the sentinel hit - distance the fixed
constant `2000`, impact the empty symbol - rather than an error; in
particular every ray cast in a grid whose cells are all `' '` or `'R'`
returns the sentinel. -/
theorem cast_ray_sentinel (maze : Maze) (px py rdx rdy : ℚ) (bs : ℕ) :
    (ddaLoop maze rdx rdy maxSteps
        (ddaInit (px / (bs : ℚ)) (py / (bs : ℚ)) rdx rdy) = none →
      cast_ray maze px py rdx rdy bs =
        { distance := some 2000, impact := ' ',
          hit_x := some px, hit_y := some py, side := 0 }) ∧
    ((∀ row ∈ maze, ∀ c ∈ row, c = ' ' ∨ c = 'R') →
      cast_ray maze px py rdx rdy bs =
        { distance := some 2000, impact := ' ',
          hit_x := some px, hit_y := some py, side := 0 }) := by
  constructor
  · intro hnone
    simp only [cast_ray]
    rw [hnone]
  · intro hopen
    simp only [cast_ray]
    rw [ddaLoop_none_of_open maze rdx rdy hopen _ _]

/-- Witness for C4: in the all-open maze `[[' ', ' ']]` every parameter
choice yields the sentinel hit. -/
theorem cast_ray_sentinel_witness :
    cast_ray [[' ', ' ']] 5 5 1 0 10 =
      { distance := some 2000, impact := ' ',
        hit_x := some 5, hit_y := some 5, side := 0 } :=
  (cast_ray_sentinel [[' ', ' ']] 5 5 1 0 10).2 (by decide)

/-- A blocked line of sight rules out standing on the viewer's cell when that
cell is walkable (the loop tests the starting cell before the goal test). -/
theorem line_of_sight_false_imp (maze : Maze) (fx fy tx ty : ℚ) (bs fuel : ℕ)
    (hlos : line_of_sight maze fx fy tx ty bs fuel = false) :
    ¬(cell_indices_from_pos fx fy bs = cell_indices_from_pos tx ty bs ∧
      is_walkable_cell maze (cell_indices_from_pos fx fy bs).1
        (cell_indices_from_pos fx fy bs).2 = true) := by
  rintro ⟨heq, hwalk⟩
  unfold line_of_sight at hlos
  rw [heq] at hlos
  cases fuel with
  | zero => simp [losLoop] at hlos
  | succ n =>
    rw [losLoop] at hlos
    rw [heq] at hwalk
    rw [if_neg (by simp [hwalk]), if_pos ⟨rfl, rfl⟩] at hlos
    exact absurd hlos (by simp)

theorem idxE_ok {α : Type} (l : List α) (i : ℕ) (h : i < l.length) (d : α) :
    idxE l i = .ok (l.getD i d) := by
  rw [idxE, List.getElem?_eq_getElem h, List.getD_eq_getElem l d h]

theorem can_move_toE_ok (maze : Maze) (x y : ℚ) (bs : ℕ) (hbs : 0 < bs) :
    can_move_toE maze x y bs = .ok (can_move_to maze x y bs) := by
  unfold can_move_toE can_move_to
  by_cases h1 : maze.isEmpty = true
  · rw [if_pos h1, if_pos h1]
  · rw [if_neg h1, if_neg h1]
    by_cases h2 : (decide (x < 0) || decide (y < 0)) = true
    · rw [if_pos h2, if_pos h2]
    · rw [if_neg h2, if_neg h2]
      have hdx : divE ⌊x⌋₊ bs = .ok (⌊x⌋₊ / bs) := by rw [divE, if_neg (by omega)]
      have hdy : divE ⌊y⌋₊ bs = .ok (⌊y⌋₊ / bs) := by rw [divE, if_neg (by omega)]
      rw [hdx, hdy]
      simp only [bind, Except.bind]
      by_cases h3 : maze.length ≤ ⌊y⌋₊ / bs
      · rw [if_pos h3, if_pos h3]; rfl
      · rw [if_neg h3, if_neg h3]
        rw [idxE_ok maze (⌊y⌋₊ / bs) (by omega) []]
        simp only [bind, Except.bind]
        have hrr : rowAt maze (⌊y⌋₊ / bs) = maze.getD (⌊y⌋₊ / bs) [] := rfl
        by_cases h4 : ((maze.getD (⌊y⌋₊ / bs) []).isEmpty
            || decide ((maze.getD (⌊y⌋₊ / bs) []).length ≤ ⌊x⌋₊ / bs)) = true
        · rw [hrr, if_pos h4, if_pos h4]; rfl
        · rw [hrr, if_neg h4, if_neg h4]
          have h5 : ⌊x⌋₊ / bs < (maze.getD (⌊y⌋₊ / bs) []).length := by
            simp only [Bool.or_eq_true, not_or, decide_eq_true_eq, not_le] at h4
            exact h4.2
          rw [idxE_ok _ (⌊x⌋₊ / bs) h5 ' ']
          simp only [bind, Except.bind]
          rfl

theorem is_walkable_cellE_ok (maze : Maze) (i j : ℤ) :
    is_walkable_cellE maze i j = .ok (is_walkable_cell maze i j) := by
  unfold is_walkable_cellE is_walkable_cell
  by_cases hb : in_bounds maze i j = true
  · rw [if_neg (by simp [hb]), if_neg (by simp [hb])]
    obtain ⟨hj0, hj, hi0, hi⟩ := (in_bounds_iff maze i j).mp hb
    rw [idxE_ok maze j.toNat (by omega) []]
    simp only [bind, Except.bind]
    rw [show maze.getD j.toNat [] = rowAt maze j.toNat from rfl,
        idxE_ok (rowAt maze j.toNat) i.toNat (by omega) ' ']
    simp only [bind, Except.bind]
    rfl
  · rw [Bool.not_eq_true] at hb
    rw [if_pos (by simp [hb]), if_pos (by simp [hb])]

theorem losLoopE_ok (maze : Maze) (x1 y1 dx dy sx sy : ℤ) :
    ∀ fuel x0 y0 err,
      losLoopE maze x1 y1 dx dy sx sy fuel x0 y0 err =
        .ok (losLoop maze x1 y1 dx dy sx sy fuel x0 y0 err) := by
  intro fuel
  induction fuel with
  | zero => intro x0 y0 err; rfl
  | succ n ih =>
    intro x0 y0 err
    rw [losLoopE, losLoop, is_walkable_cellE_ok]
    simp only [bind, Except.bind]
    by_cases hw : is_walkable_cell maze x0 y0 = true
    · by_cases hg : x0 = x1 ∧ y0 = y1
      · obtain ⟨rfl, rfl⟩ := hg
        simp [hw, pure, Except.pure]
      · simp [hw, hg, ih, pure, Except.pure]
    · rw [Bool.not_eq_true] at hw
      simp [hw, pure, Except.pure]

theorem ddaLoopE_ok (maze : Maze) (rdx rdy : ℚ) :
    ∀ fuel st, ddaLoopE maze rdx rdy fuel st = .ok (ddaLoop maze rdx rdy fuel st) := by
  intro fuel
  induction fuel with
  | zero => intro st; rfl
  | succ n ih =>
    intro st
    rw [ddaLoopE, ddaLoop]
    by_cases g1 : (ddaAdvance rdx rdy st).1.mapy < 0 ∨ (ddaAdvance rdx rdy st).1.mapx < 0
    · rw [if_pos g1, if_pos g1]
    · rw [if_neg g1, if_neg g1]
      by_cases g2 : inGridB maze (ddaAdvance rdx rdy st).1.mapx
          (ddaAdvance rdx rdy st).1.mapy = true
      · rw [if_pos g2, if_pos g2]
        obtain ⟨hj, hi⟩ : ((ddaAdvance rdx rdy st).1.mapy).toNat < maze.length ∧
            ((ddaAdvance rdx rdy st).1.mapx).toNat <
              (rowAt maze ((ddaAdvance rdx rdy st).1.mapy).toNat).length := by
          simpa [inGridB] using g2
        rw [idxE_ok maze _ hj []]
        simp only [bind, Except.bind]
        rw [show maze.getD ((ddaAdvance rdx rdy st).1.mapy).toNat [] =
              rowAt maze ((ddaAdvance rdx rdy st).1.mapy).toNat from rfl,
            idxE_ok _ _ hi ' ']
        simp only [bind, Except.bind]
        by_cases g3 : blockingB maze (ddaAdvance rdx rdy st).1.mapx
            (ddaAdvance rdx rdy st).1.mapy = true
        · rw [if_pos (by simpa [blockingB, cellAt] using g3), if_pos g3]
          rfl
        · rw [if_neg (by simpa [blockingB, cellAt] using g3), if_neg g3, ih]
      · rw [if_neg g2, if_neg g2]

/-- On a hit the DDA loop's final cell is inside the grid (the loop only
reports hits after its own bounds checks). -/
theorem ddaLoop_hit_in_grid (maze : Maze) (rdx rdy : ℚ) :
    ∀ fuel st st1 side pre, ddaLoop maze rdx rdy fuel st = some (st1, side, pre) →
      0 ≤ st1.mapx ∧ 0 ≤ st1.mapy ∧ inGridB maze st1.mapx st1.mapy = true := by
  intro fuel
  induction fuel with
  | zero => intro st st1 side pre h; simp [ddaLoop] at h
  | succ n ih =>
    intro st st1 side pre h
    simp only [ddaLoop] at h
    split_ifs at h with g1 g2 g3
    · rw [Option.some.injEq] at h
      have h1 : (ddaAdvance rdx rdy st).1 = st1 := congrArg Prod.fst h
      push_neg at g1
      exact ⟨by rw [← h1]; omega, by rw [← h1]; omega, h1 ▸ g2⟩
    · exact ih _ _ _ _ h

theorem cast_rayE_ok (maze : Maze) (px py rdx rdy : ℚ) (bs : ℕ) :
    cast_rayE maze px py rdx rdy bs = .ok (cast_ray maze px py rdx rdy bs) := by
  simp only [cast_rayE, cast_ray, ddaLoopE_ok]
  simp only [bind, Except.bind]
  rcases hres : ddaLoop maze rdx rdy maxSteps
      (ddaInit (px / (bs : ℚ)) (py / (bs : ℚ)) rdx rdy) with _ | res
  · rfl
  · obtain ⟨st, side, pre⟩ := res
    obtain ⟨-, -, hgrid⟩ := ddaLoop_hit_in_grid maze rdx rdy _ _ _ _ _ hres
    obtain ⟨hj, hi⟩ : st.mapy.toNat < maze.length ∧
        st.mapx.toNat < (rowAt maze st.mapy.toNat).length := by
      simpa [inGridB] using hgrid
    dsimp only
    rw [idxE_ok maze _ hj []]
    simp only [bind, Except.bind]
    rw [show maze.getD st.mapy.toNat [] = rowAt maze st.mapy.toNat from rfl,
        idxE_ok _ _ hi ' ']
    simp only [bind, Except.bind]
    rfl

/-- Claim C8: the three core geometry operations are total.  For every jagged
maze (including empty rows or no rows), every origin, direction, target and
positive block size, the checked variants - which error exactly where the
Rust source could panic - return `.ok` with the plain result: out-of-bounds
geometry is resolved as blocked or as the sentinel, never as a panic. -/
theorem core_geometry_total (maze : Maze) (px py rdx rdy fx fy tx ty x y : ℚ)
    (bs losFuel : ℕ) (hbs : 0 < bs) :
    cast_rayE maze px py rdx rdy bs = .ok (cast_ray maze px py rdx rdy bs) ∧
    line_of_sightE maze fx fy tx ty bs losFuel =
      .ok (line_of_sight maze fx fy tx ty bs losFuel) ∧
    can_move_toE maze x y bs = .ok (can_move_to maze x y bs) := by
  refine ⟨cast_rayE_ok maze px py rdx rdy bs, ?_, can_move_toE_ok maze x y bs hbs⟩
  unfold line_of_sightE line_of_sight
  exact losLoopE_ok maze _ _ _ _ _ _ losFuel _ _ _

/-- Witness for C8 at a concrete degenerate jagged maze (an empty row and a
short row) and concrete parameters. -/
theorem core_geometry_total_witness :
    cast_rayE [[], [' ']] 5 5 1 0 10 = .ok (cast_ray [[], [' ']] 5 5 1 0 10) ∧
    line_of_sightE [[], [' ']] 5 5 25 25 10 64 =
      .ok (line_of_sight [[], [' ']] 5 5 25 25 10 64) ∧
    can_move_toE [[], [' ']] 5 5 10 = .ok (can_move_to [[], [' ']] 5 5 10) :=
  core_geometry_total [[], [' ']] 5 5 1 0 5 5 25 25 5 5 10 64 (by decide)

/-! ## Walk-graph lemmas -/

theorem isChain_nil_iff (maze : Maze) (s g : Cell) :
    isChain maze s [] g = true ↔ s = g := by
  simp [isChain]

theorem isChain_cons_iff (maze : Maze) (s c g : Cell) (p : List Cell) :
    isChain maze s (c :: p) g = true ↔
      edgeB maze s c = true ∧ isChain maze c p g = true := by
  simp [isChain]

theorem edgeB_walkable (maze : Maze) (c n : Cell) (h : edgeB maze c n = true) :
    is_walkable_cell maze n.1 n.2 = true := by
  simp only [edgeB, Bool.and_eq_true] at h
  exact h.2

theorem is_walkable_in_bounds (maze : Maze) (i j : ℤ)
    (h : is_walkable_cell maze i j = true) : in_bounds maze i j = true := by
  unfold is_walkable_cell at h
  by_cases hb : in_bounds maze i j = true
  · exact hb
  · rw [Bool.not_eq_true] at hb
    rw [if_pos (by simp [hb])] at h
    exact absurd h (by simp)

theorem isChain_glue (maze : Maze) :
    ∀ (p : List Cell) (s x : Cell) (q : List Cell) (g : Cell),
      isChain maze s p x = true → isChain maze x q g = true →
      isChain maze s (p ++ q) g = true := by
  intro p
  induction p with
  | nil =>
    intro s x q g h1 h2
    obtain rfl := (isChain_nil_iff maze s x).mp h1
    simpa using h2
  | cons a p ih =>
    intro s x q g h1 h2
    obtain ⟨he, hc⟩ := (isChain_cons_iff maze s a x p).mp h1
    rw [List.cons_append, isChain_cons_iff]
    exact ⟨he, ih a x q g hc h2⟩

theorem isChain_single_of_edge (maze : Maze) (s n : Cell)
    (h : edgeB maze s n = true) : isChain maze s [n] n = true := by
  rw [isChain_cons_iff]
  exact ⟨h, (isChain_nil_iff maze n n).mpr rfl⟩

theorem isChain_append_edge (maze : Maze) (p : List Cell) (s x n : Cell)
    (hc : isChain maze s p x = true) (he : edgeB maze x n = true) :
    isChain maze s (p ++ [n]) n = true :=
  isChain_glue maze p s x [n] n hc (isChain_single_of_edge maze x n he)

theorem isChain_suffix (maze : Maze) :
    ∀ (p₁ : List Cell) (s x : Cell) (p₂ : List Cell) (g : Cell),
      isChain maze s (p₁ ++ x :: p₂) g = true → isChain maze x p₂ g = true := by
  intro p₁
  induction p₁ with
  | nil =>
    intro s x p₂ g h
    exact ((isChain_cons_iff maze s x g p₂).mp h).2
  | cons a p₁ ih =>
    intro s x p₂ g h
    rw [List.cons_append, isChain_cons_iff] at h
    exact ih a x p₂ g h.2

theorem isChain_prefix (maze : Maze) :
    ∀ (p₁ : List Cell) (s x : Cell) (p₂ : List Cell) (g : Cell),
      isChain maze s (p₁ ++ x :: p₂) g = true → isChain maze s (p₁ ++ [x]) x = true := by
  intro p₁
  induction p₁ with
  | nil =>
    intro s x p₂ g h
    rw [List.nil_append, isChain_cons_iff] at h
    exact isChain_single_of_edge maze s x h.1
  | cons a p₁ ih =>
    intro s x p₂ g h
    rw [List.cons_append, isChain_cons_iff] at h
    rw [List.cons_append, isChain_cons_iff]
    exact ⟨h.1, ih a x p₂ g h.2⟩

theorem isChain_mem_walkable (maze : Maze) :
    ∀ (p : List Cell) (s g : Cell), isChain maze s p g = true →
      ∀ x ∈ p, is_walkable_cell maze x.1 x.2 = true := by
  intro p
  induction p with
  | nil => intro s g _ x hx; exact absurd hx (List.not_mem_nil _)
  | cons a p ih =>
    intro s g h x hx
    obtain ⟨he, hc⟩ := (isChain_cons_iff maze s a g p).mp h
    rcases List.mem_cons.mp hx with rfl | hx2
    · exact edgeB_walkable maze s x he
    · exact ih a g hc x hx2

theorem isChain_last (maze : Maze) :
    ∀ (p : List Cell) (s g : Cell), isChain maze s p g = true → p ≠ [] →
      ∃ q w, p = q ++ [g] ∧ isChain maze s q w = true ∧ edgeB maze w g = true := by
  intro p
  induction p with
  | nil => intro s g _ h; exact absurd rfl h
  | cons a p ih =>
    intro s g h _
    obtain ⟨he, hc⟩ := (isChain_cons_iff maze s a g p).mp h
    by_cases hpe : p = []
    · subst hpe
      obtain rfl := (isChain_nil_iff maze a g).mp hc
      exact ⟨[], s, rfl, (isChain_nil_iff maze s s).mpr rfl, he⟩
    · obtain ⟨q, w, hq, hcw, hew⟩ := ih a g hc hpe
      refine ⟨a :: q, w, by rw [hq]; simp, ?_, hew⟩
      rw [isChain_cons_iff]
      exact ⟨he, hcw⟩

theorem not_nodup_decomp {α : Type} [DecidableEq α] :
    ∀ (l : List α), ¬l.Nodup → ∃ a l₁ l₂ l₃, l = l₁ ++ a :: l₂ ++ a :: l₃ := by
  intro l
  induction l with
  | nil => intro h; exact absurd List.nodup_nil h
  | cons x xs ih =>
    intro h
    by_cases hx : x ∈ xs
    · obtain ⟨l₂, l₃, rfl⟩ := List.append_of_mem hx
      exact ⟨x, [], l₂, l₃, rfl⟩
    · have hnd : ¬xs.Nodup := fun hn => h (List.nodup_cons.mpr ⟨hx, hn⟩)
      obtain ⟨a, l₁, l₂, l₃, rfl⟩ := ih hnd
      exact ⟨a, x :: l₁, l₂, l₃, rfl⟩

theorem chain_shorten (maze : Maze) :
    ∀ (n : ℕ) (p : List Cell) (s g : Cell), p.length ≤ n →
      isChain maze s p g = true →
      ∃ q, isChain maze s q g = true ∧ q.length ≤ p.length ∧ (s :: q).Nodup := by
  intro n
  induction n with
  | zero =>
    intro p s g hl hc
    have hp : p = [] := List.length_eq_zero.mp (Nat.le_antisymm hl (Nat.zero_le _))
    subst hp
    exact ⟨[], hc, Nat.le_refl _, List.nodup_cons.mpr ⟨List.not_mem_nil _, List.nodup_nil⟩⟩
  | succ n ih =>
    intro p s g hl hc
    by_cases hnd : (s :: p).Nodup
    · exact ⟨p, hc, Nat.le_refl _, hnd⟩
    · by_cases hs : s ∈ p
      · obtain ⟨p₁, p₂, rfl⟩ := List.append_of_mem hs
        have hc2 : isChain maze s p₂ g = true := isChain_suffix maze p₁ s s p₂ g hc
        have hlen : p₂.length ≤ n := by
          rw [List.length_append, List.length_cons] at hl
          omega
        obtain ⟨q, hq, hql, hqnd⟩ := ih p₂ s g hlen hc2
        refine ⟨q, hq, ?_, hqnd⟩
        rw [List.length_append, List.length_cons]
        omega
      · have hpnd : ¬p.Nodup := fun hn => hnd (List.nodup_cons.mpr ⟨hs, hn⟩)
        obtain ⟨a, p₁, p₂, p₃, rfl⟩ := not_nodup_decomp p hpnd
        have hc2 : isChain maze s (p₁ ++ a :: (p₂ ++ a :: p₃)) g = true := by
          simpa using hc
        have hpre : isChain maze s (p₁ ++ [a]) a = true :=
          isChain_prefix maze p₁ s a (p₂ ++ a :: p₃) g hc2
        have hmid : isChain maze a (p₂ ++ a :: p₃) g = true :=
          isChain_suffix maze p₁ s a (p₂ ++ a :: p₃) g hc2
        have hsuf : isChain maze a p₃ g = true :=
          isChain_suffix maze p₂ a a p₃ g hmid
        have hglue : isChain maze s ((p₁ ++ [a]) ++ p₃) g = true :=
          isChain_glue maze (p₁ ++ [a]) s a p₃ g hpre hsuf
        have hlen : ((p₁ ++ [a]) ++ p₃).length ≤ n := by
          simp only [List.length_append, List.length_cons, List.length_nil] at hl ⊢
          omega
        obtain ⟨q, hq, hql, hqnd⟩ := ih _ s g hlen hglue
        refine ⟨q, hq, ?_, hqnd⟩
        simp only [List.length_append, List.length_cons, List.length_nil] at hql ⊢
        omega

theorem mem_allCells (maze : Maze) (c : Cell) (h : in_bounds maze c.1 c.2 = true) :
    c ∈ allCells maze := by
  obtain ⟨ci, cj⟩ := c
  obtain ⟨hj0, hj, hi0, hi⟩ := (in_bounds_iff maze ci cj).mp h
  have h1 : cj.toNat ∈ List.range maze.length := List.mem_range.mpr (by omega)
  have h2 : ci.toNat ∈ List.range (rowAt maze cj.toNat).length :=
    List.mem_range.mpr (by omega)
  have h4 : (ci, cj) = (Int.ofNat ci.toNat, Int.ofNat cj.toNat) := by
    show (ci, cj) = (((ci.toNat : ℕ) : ℤ), ((cj.toNat : ℕ) : ℤ))
    rw [Int.toNat_of_nonneg hi0, Int.toNat_of_nonneg hj0]
  rw [h4]
  unfold allCells
  exact List.mem_flatMap.mpr ⟨cj.toNat, h1,
    List.mem_map_of_mem (fun i : ℕ => (Int.ofNat i, Int.ofNat cj.toNat)) h2⟩

theorem visited_length_le (maze : Maze) (s : Cell) (l : List Cell)
    (hvnd : l.Nodup) (hvc : ∀ v ∈ l, v = s ∨ in_bounds maze v.1 v.2 = true) :
    l.length ≤ numCells maze + 1 := by
  have hsub : l ⊆ s :: allCells maze := by
    intro v hv
    rcases hvc v hv with rfl | hb
    · exact List.mem_cons_self _ _
    · exact List.mem_cons_of_mem _ (mem_allCells maze v hb)
  have hle := (hvnd.subperm hsub).length_le
  simpa [numCells] using hle

theorem chain_length_le_numCells (maze : Maze) (s g : Cell) (q : List Cell)
    (hq : isChain maze s q g = true) (hnd : (s :: q).Nodup) :
    q.length ≤ numCells maze := by
  have hqnd : q.Nodup := (List.nodup_cons.mp hnd).2
  have hsub : q ⊆ allCells maze := by
    intro x hx
    exact mem_allCells maze x
      (is_walkable_in_bounds maze x.1 x.2 (isChain_mem_walkable maze q s g hq x hx))
  simpa [numCells] using (hqnd.subperm hsub).length_le

theorem exists_isShortest (maze : Maze) (s g : Cell) (p : List Cell)
    (h : isChain maze s p g = true) : ∃ L, isShortest maze s g L ∧ L ≤ p.length := by
  classical
  have hex : ∃ n, ∃ q, isChain maze s q g = true ∧ q.length = n := ⟨p.length, p, h, rfl⟩
  refine ⟨Nat.find hex, ⟨Nat.find_spec hex, ?_⟩, Nat.find_min' hex ⟨p, h, rfl⟩⟩
  intro r hr
  exact Nat.find_min' hex ⟨r, hr, rfl⟩

theorem isShortest_unique (maze : Maze) (s g : Cell) (L1 L2 : ℕ)
    (h1 : isShortest maze s g L1) (h2 : isShortest maze s g L2) : L1 = L2 := by
  obtain ⟨⟨p1, hp1, hl1⟩, hm1⟩ := h1
  obtain ⟨⟨p2, hp2, hl2⟩, hm2⟩ := h2
  have ha := hm1 p2 hp2
  have hb := hm2 p1 hp1
  omega

theorem isShortest_self (maze : Maze) (s : Cell) : isShortest maze s s 0 :=
  ⟨⟨[], (isChain_nil_iff maze s s).mpr rfl, rfl⟩, fun _ _ => Nat.zero_le _⟩

theorem distLE_of_isShortest (maze : Maze) (s g : Cell) (L n : ℕ)
    (h : isShortest maze s g L) (hn : L ≤ n) : distLE maze s g n := by
  obtain ⟨⟨p, hp, hl⟩, -⟩ := h
  exact ⟨p, hp, by omega⟩

theorem isShortest_le_of_distLE (maze : Maze) (s g : Cell) (L n : ℕ)
    (h : isShortest maze s g L) (hd : distLE maze s g n) : L ≤ n := by
  obtain ⟨p, hp, hl⟩ := hd
  exact le_trans (h.2 p hp) hl

theorem isShortest_le_numCells (maze : Maze) (s g : Cell) (L : ℕ)
    (h : isShortest maze s g L) : L ≤ numCells maze := by
  obtain ⟨⟨p, hp, hl⟩, hmin⟩ := h
  obtain ⟨q, hq, hql, hqnd⟩ := chain_shorten maze p.length p s g (Nat.le_refl _) hp
  exact le_trans (hmin q hq) (chain_length_le_numCells maze s g q hq hqnd)

/-! ## Association-list lookup lemmas -/

theorem lookup_mem : ∀ (l : List (Cell × Cell)) (a b : Cell),
    List.lookup a l = some b → (a, b) ∈ l := by
  intro l
  induction l with
  | nil => intro a b h; simp [List.lookup] at h
  | cons x xs ih =>
    intro a b h
    obtain ⟨k, v⟩ := x
    cases hbeq : (a == k) with
    | true =>
      rw [List.lookup, hbeq] at h
      rw [Option.some.injEq] at h
      rw [beq_iff_eq] at hbeq
      rw [hbeq, h]
      exact List.mem_cons_self _ _
    | false =>
      rw [List.lookup, hbeq] at h
      exact List.mem_cons_of_mem _ (ih a b h)

theorem lookup_cons_self (l : List (Cell × Cell)) (a b : Cell) :
    List.lookup a ((a, b) :: l) = some b := by
  rw [List.lookup, beq_self_eq_true]

theorem lookup_extend (l : List (Cell × Cell)) (v n c : Cell)
    (h : (List.lookup v l).isSome = true) :
    (List.lookup v ((n, c) :: l)).isSome = true := by
  cases hbeq : (v == n) with
  | true => rw [List.lookup, hbeq]; rfl
  | false => rw [List.lookup, hbeq]; exact h

/-! ## BFS expansion step lemmas -/

theorem tryVisit_eq (maze : Maze) (c : Cell) (st : BfsState) (d : Cell) :
    tryVisit maze c st d = st ∨
    ((c.1 + d.1, c.2 + d.2) ∉ st.visited ∧
      in_bounds maze (c.1 + d.1) (c.2 + d.2) = true ∧
      is_walkable_cell maze (c.1 + d.1) (c.2 + d.2) = true ∧
      tryVisit maze c st d =
        ⟨st.queue ++ [(c.1 + d.1, c.2 + d.2)],
         (c.1 + d.1, c.2 + d.2) :: st.visited,
         ((c.1 + d.1, c.2 + d.2), c) :: st.parent⟩) := by
  simp only [tryVisit]
  split_ifs with h1 h2 h3
  · exact Or.inl rfl
  · exact Or.inl rfl
  · exact Or.inl rfl
  · right
    have hb : in_bounds maze (c.1 + d.1) (c.2 + d.2) = true := by simpa using h1
    have hw : is_walkable_cell maze (c.1 + d.1) (c.2 + d.2) = true := by simpa using h3
    exact ⟨fun hm => h2 (List.elem_iff.mpr hm), hb, hw, rfl⟩

theorem edgeB_of_dir (maze : Maze) (c d : Cell) (hd : d ∈ dirs)
    (hw : is_walkable_cell maze (c.1 + d.1) (c.2 + d.2) = true) :
    edgeB maze c (c.1 + d.1, c.2 + d.2) = true := by
  unfold edgeB
  rw [Bool.and_eq_true]
  refine ⟨List.elem_iff.mpr ?_, hw⟩
  unfold nbrs
  exact List.mem_map_of_mem (fun d => (c.1 + d.1, c.2 + d.2)) hd

theorem tryVisit_visited_mono (maze : Maze) (c : Cell) (st : BfsState) (d : Cell) :
    ∀ x ∈ st.visited, x ∈ (tryVisit maze c st d).visited := by
  intro x hx
  rcases tryVisit_eq maze c st d with h | ⟨-, -, -, h⟩
  · rw [h]; exact hx
  · rw [h]; exact List.mem_cons_of_mem _ hx

theorem tryVisit_covers (maze : Maze) (c : Cell) (st : BfsState) (d : Cell)
    (hb : in_bounds maze (c.1 + d.1) (c.2 + d.2) = true)
    (hw : is_walkable_cell maze (c.1 + d.1) (c.2 + d.2) = true) :
    (c.1 + d.1, c.2 + d.2) ∈ (tryVisit maze c st d).visited := by
  by_cases hv : (c.1 + d.1, c.2 + d.2) ∈ st.visited
  · exact tryVisit_visited_mono maze c st d _ hv
  · simp only [tryVisit]
    rw [if_neg (by simp [hb]), if_neg (fun hc => hv (List.elem_iff.mp hc)),
      if_neg (by simp [hw])]
    exact List.mem_cons_self _ _

theorem expand_eq (maze : Maze) (c : Cell) (st : BfsState) :
    expand maze c st =
      tryVisit maze c (tryVisit maze c (tryVisit maze c
        (tryVisit maze c st (1, 0)) (-1, 0)) (0, 1)) (0, -1) := rfl

theorem expand_covers (maze : Maze) (c : Cell) (st : BfsState) :
    ∀ n, edgeB maze c n = true → n ∈ (expand maze c st).visited := by
  intro n he
  rw [edgeB, Bool.and_eq_true] at he
  obtain ⟨hmem, hw⟩ := he
  have hn : n ∈ nbrs c := List.elem_iff.mp hmem
  obtain ⟨d, hd, rfl⟩ := List.mem_map.mp hn
  rw [expand_eq]
  simp only [dirs, List.mem_cons, List.not_mem_nil, or_false] at hd
  rcases hd with rfl | rfl | rfl | rfl
  · exact tryVisit_visited_mono _ _ _ _ _ (tryVisit_visited_mono _ _ _ _ _
      (tryVisit_visited_mono _ _ _ _ _ (tryVisit_covers maze c st (1, 0)
        (is_walkable_in_bounds maze _ _ hw) hw)))
  · exact tryVisit_visited_mono _ _ _ _ _ (tryVisit_visited_mono _ _ _ _ _
      (tryVisit_covers maze c (tryVisit maze c st (1, 0)) (-1, 0)
        (is_walkable_in_bounds maze _ _ hw) hw))
  · exact tryVisit_visited_mono _ _ _ _ _
      (tryVisit_covers maze c (tryVisit maze c (tryVisit maze c st (1, 0)) (-1, 0)) (0, 1)
        (is_walkable_in_bounds maze _ _ hw) hw)
  · exact tryVisit_covers maze c
      (tryVisit maze c (tryVisit maze c (tryVisit maze c st (1, 0)) (-1, 0)) (0, 1)) (0, -1)
      (is_walkable_in_bounds maze _ _ hw) hw

theorem tryVisit_measure_le (maze : Maze) (c : Cell) (st : BfsState) (d : Cell)
    (hlen : (tryVisit maze c st d).visited.length ≤ numCells maze + 1) :
    bfsMeasure maze (tryVisit maze c st d) ≤ bfsMeasure maze st := by
  rcases tryVisit_eq maze c st d with h | ⟨-, -, -, h⟩
  · rw [h]
  · rw [h] at hlen ⊢
    simp only [bfsMeasure, List.length_append, List.length_cons, List.length_nil] at hlen ⊢
    omega

theorem tryVisit_midInv (maze : Maze) (s c : Cell) (st : BfsState) (d : Cell) (lvl : ℕ)
    (hd : d ∈ dirs) (hcv : c ∈ st.visited) (hcs : isShortest maze s c lvl)
    (hinv : BfsMidInv maze s c st lvl) :
    BfsMidInv maze s c (tryVisit maze c st d) lvl := by
  rcases tryVisit_eq maze c st d with h | ⟨hnv, hb, hw, h⟩
  · rw [h]; exact hinv
  · rw [h]
    obtain ⟨w, hqv, hvnd, hqnd, hvcells, hdone, ⟨qa, qb, hql, hqa, hqb⟩, hcomp⟩ := hinv
    obtain ⟨hsv, hreach, hpv, hpkeys, hpdist, hpcover⟩ := w
    have hedge : edgeB maze c (c.1 + d.1, c.2 + d.2) = true := edgeB_of_dir maze c d hd hw
    obtain ⟨⟨pc, hpc, hpclen⟩, hmin⟩ := hcs
    have hchainn : isChain maze s (pc ++ [(c.1 + d.1, c.2 + d.2)]) (c.1 + d.1, c.2 + d.2) = true :=
      isChain_append_edge maze pc s c _ hpc hedge
    have hlenn : (pc ++ [(c.1 + d.1, c.2 + d.2)]).length = lvl + 1 := by
      simp [hpclen]
    have hshortn : isShortest maze s (c.1 + d.1, c.2 + d.2) (lvl + 1) := by
      constructor
      · exact ⟨pc ++ [(c.1 + d.1, c.2 + d.2)], hchainn, hlenn⟩
      · intro p hp
        by_contra hlt
        push_neg at hlt
        exact hnv (hcomp _ ⟨p, hp, by omega⟩)
    have hnq : (c.1 + d.1, c.2 + d.2) ∉ st.queue := fun hq => hnv (hqv _ hq)
    have hns : (c.1 + d.1, c.2 + d.2) ≠ s := fun he => hnv (he ▸ hsv)
    refine ⟨⟨?_, ?_, ?_, ?_, ?_, ?_⟩, ?_, ?_, ?_, ?_, ?_, ?_, ?_⟩
    · exact List.mem_cons_of_mem _ hsv
    · intro v hv
      rcases List.mem_cons.mp hv with rfl | hv2
      · exact ⟨pc ++ [(c.1 + d.1, c.2 + d.2)], hchainn⟩
      · exact hreach v hv2
    · intro pr hpr
      rcases List.mem_cons.mp hpr with rfl | hpr2
      · exact ⟨List.mem_cons_self _ _, List.mem_cons_of_mem _ hcv, hedge, hns⟩
      · obtain ⟨h1, h2, h3, h4⟩ := hpv pr hpr2
        exact ⟨List.mem_cons_of_mem _ h1, List.mem_cons_of_mem _ h2, h3, h4⟩
    · rw [List.map_cons]
      refine List.nodup_cons.mpr ⟨?_, hpkeys⟩
      intro hm
      obtain ⟨pr, hpr, hfst⟩ := List.mem_map.mp hm
      have h1 := (hpv pr hpr).1
      rw [hfst] at h1
      exact hnv h1
    · intro pr hpr
      rcases List.mem_cons.mp hpr with rfl | hpr2
      · exact ⟨lvl, ⟨⟨pc, hpc, hpclen⟩, hmin⟩, hshortn⟩
      · exact hpdist pr hpr2
    · intro v hv hvs
      rcases List.mem_cons.mp hv with rfl | hv2
      · rw [lookup_cons_self]; rfl
      · exact lookup_extend _ _ _ _ (hpcover v hv2 hvs)
    · intro x hx
      rcases List.mem_append.mp hx with h1 | h1
      · exact List.mem_cons_of_mem _ (hqv x h1)
      · rw [List.mem_singleton] at h1
        subst h1
        exact List.mem_cons_self _ _
    · exact List.nodup_cons.mpr ⟨hnv, hvnd⟩
    · refine List.Nodup.append hqnd (List.nodup_singleton _) ?_
      intro a ha hb2
      rw [List.mem_singleton] at hb2
      subst hb2
      exact hnq ha
    · intro v hv
      rcases List.mem_cons.mp hv with rfl | hv2
      · exact Or.inr hb
      · exact hvcells v hv2
    · intro x hxv hxq
      have hxn : x ≠ (c.1 + d.1, c.2 + d.2) := by
        rintro rfl
        exact hxq (List.mem_append.mpr (Or.inr (List.mem_singleton.mpr rfl)))
      have hxv2 : x ∈ st.visited := by
        rcases List.mem_cons.mp hxv with h1 | h1
        · exact absurd h1 hxn
        · exact h1
      have hxq2 : x ∉ st.queue := fun hq => hxq (List.mem_append.mpr (Or.inl hq))
      rcases hdone x hxv2 hxq2 with h1 | h1
      · exact Or.inl h1
      · exact Or.inr fun n hn => List.mem_cons_of_mem _ (h1 n hn)
    · refine ⟨qa, qb ++ [(c.1 + d.1, c.2 + d.2)], by rw [hql, List.append_assoc], hqa, ?_⟩
      intro x hx
      rcases List.mem_append.mp hx with h1 | h1
      · exact hqb x h1
      · rw [List.mem_singleton] at h1
        subst h1
        exact hshortn
    · intro u hu
      exact List.mem_cons_of_mem _ (hcomp u hu)

theorem expand_midInv (maze : Maze) (s c : Cell) (st : BfsState) (lvl : ℕ)
    (hcv : c ∈ st.visited) (hcs : isShortest maze s c lvl)
    (hinv : BfsMidInv maze s c st lvl) :
    BfsMidInv maze s c (expand maze c st) lvl ∧
    bfsMeasure maze (expand maze c st) ≤ bfsMeasure maze st := by
  have hd1 : ((1 : ℤ), (0 : ℤ)) ∈ dirs := by simp [dirs]
  have hd2 : ((-1 : ℤ), (0 : ℤ)) ∈ dirs := by simp [dirs]
  have hd3 : ((0 : ℤ), (1 : ℤ)) ∈ dirs := by simp [dirs]
  have hd4 : ((0 : ℤ), (-1 : ℤ)) ∈ dirs := by simp [dirs]
  have h1 := tryVisit_midInv maze s c st (1, 0) lvl hd1 hcv hcs hinv
  have hm1 := tryVisit_measure_le maze c st (1, 0)
    (visited_length_le maze s _ h1.hvnd h1.hvcells)
  have hcv1 := tryVisit_visited_mono maze c st (1, 0) c hcv
  have h2 := tryVisit_midInv maze s c _ (-1, 0) lvl hd2 hcv1 hcs h1
  have hm2 := tryVisit_measure_le maze c (tryVisit maze c st (1, 0)) (-1, 0)
    (visited_length_le maze s _ h2.hvnd h2.hvcells)
  have hcv2 := tryVisit_visited_mono maze c _ (-1, 0) c hcv1
  have h3 := tryVisit_midInv maze s c _ (0, 1) lvl hd3 hcv2 hcs h2
  have hm3 := tryVisit_measure_le maze c (tryVisit maze c (tryVisit maze c st (1, 0)) (-1, 0))
    (0, 1) (visited_length_le maze s _ h3.hvnd h3.hvcells)
  have hcv3 := tryVisit_visited_mono maze c _ (0, 1) c hcv2
  have h4 := tryVisit_midInv maze s c _ (0, -1) lvl hd4 hcv3 hcs h3
  have hm4 := tryVisit_measure_le maze c
    (tryVisit maze c (tryVisit maze c (tryVisit maze c st (1, 0)) (-1, 0)) (0, 1))
    (0, -1) (visited_length_le maze s _ h4.hvnd h4.hvcells)
  rw [expand_eq]
  exact ⟨h4, le_trans hm4 (le_trans hm3 (le_trans hm2 hm1))⟩

theorem level_shift (maze : Maze) (s : Cell) (st : BfsState) (d : ℕ)
    (hinv : BfsInv maze s st d)
    (hqall : ∀ x ∈ st.queue, isShortest maze s x (d + 1)) :
    BfsInv maze s st (d + 1) := by
  obtain ⟨w, hqv, hvnd, hqnd, hvcells, hdone, -, hcomp⟩ := hinv
  refine ⟨w, hqv, hvnd, hqnd, hvcells, hdone, ?_, ?_⟩
  · exact ⟨st.queue, [], (List.append_nil _).symm, hqall,
      fun x hx => absurd hx (List.not_mem_nil _)⟩
  · intro u hu
    obtain ⟨p, hp, hl⟩ := hu
    by_cases hle : p.length ≤ d
    · exact hcomp u ⟨p, hp, hle⟩
    · have hpe : p ≠ [] := by
        intro he
        subst he
        simp at hle
      obtain ⟨q, w2, hpq, hcw, hew⟩ := isChain_last maze p s u hp hpe
      have hqlen : q.length ≤ d := by
        have := congrArg List.length hpq
        simp only [List.length_append, List.length_cons, List.length_nil] at this
        omega
      have hwv : w2 ∈ st.visited := hcomp w2 ⟨q, hcw, hqlen⟩
      have hwq : w2 ∉ st.queue := by
        intro hwq
        obtain ⟨L, hsL, hLle⟩ := exists_isShortest maze s w2 q hcw
        have := isShortest_unique maze s w2 L (d + 1) hsL (hqall w2 hwq)
        omega
      exact hdone w2 hwv hwq u hew

theorem empty_queue_complete (maze : Maze) (st : BfsState)
    (hq : st.queue = [])
    (hdone : ∀ c ∈ st.visited, c ∉ st.queue → ∀ n, edgeB maze c n = true →
      n ∈ st.visited) :
    ∀ (p : List Cell) (x u : Cell), x ∈ st.visited → isChain maze x p u = true →
      u ∈ st.visited := by
  intro p
  induction p with
  | nil =>
    intro x u hx hc
    obtain rfl := (isChain_nil_iff maze x u).mp hc
    exact hx
  | cons a p ih =>
    intro x u hx hc
    obtain ⟨he, hc2⟩ := (isChain_cons_iff maze x a u p).mp hc
    have ha : a ∈ st.visited :=
      hdone x hx (by rw [hq]; exact List.not_mem_nil _) a he
    exact ih a u ha hc2

theorem pop_expand_inv (maze : Maze) (s c : Cell) (rest : List Cell) (st : BfsState)
    (d : ℕ) (hinv : BfsInv maze s st d) (hq : st.queue = c :: rest)
    (hcs : isShortest maze s c d) :
    BfsInv maze s (expand maze c ⟨rest, st.visited, st.parent⟩) d ∧
    bfsMeasure maze (expand maze c ⟨rest, st.visited, st.parent⟩) < bfsMeasure maze st := by
  have hcv : c ∈ st.visited := hinv.hqv c (by rw [hq]; exact List.mem_cons_self _ _)
  have hmid : BfsMidInv maze s c ⟨rest, st.visited, st.parent⟩ d := by
    obtain ⟨w, hqv, hvnd, hqnd, hvcells, hdone, ⟨qa, qb, hql, hqa, hqb⟩, hcomp⟩ := hinv
    refine ⟨⟨w.hsv, w.hreach, w.hpv, w.hpkeys, w.hpdist, w.hpcover⟩,
      ?_, hvnd, ?_, hvcells, ?_, ?_, hcomp⟩
    · intro x hx
      exact hqv x (by rw [hq]; exact List.mem_cons_of_mem _ hx)
    · rw [hq] at hqnd
      exact (List.nodup_cons.mp hqnd).2
    · intro x hxv hxr
      by_cases hxc : x = c
      · exact Or.inl hxc
      · refine Or.inr (hdone x hxv ?_)
        rw [hq]
        intro hmem
        rcases List.mem_cons.mp hmem with h1 | h1
        · exact hxc h1
        · exact hxr h1
    · rw [hq] at hql
      cases qa with
      | nil =>
        refine ⟨[], rest, rfl, fun x hx => absurd hx (List.not_mem_nil _), ?_⟩
        intro x hx
        apply hqb
        rw [List.nil_append] at hql
        rw [← hql]
        exact List.mem_cons_of_mem _ hx
      | cons a qa2 =>
        rw [List.cons_append] at hql
        injection hql with h1 h2
        exact ⟨qa2, qb, h2, fun x hx => hqa x (List.mem_cons_of_mem _ hx), hqb⟩
  obtain ⟨hmid2, hmeas⟩ := expand_midInv maze s c ⟨rest, st.visited, st.parent⟩ d hcv hcs hmid
  constructor
  · obtain ⟨w, hqv, hvnd, hqnd, hvcells, hdone, hlevel, hcomp⟩ := hmid2
    refine ⟨w, hqv, hvnd, hqnd, hvcells, ?_, hlevel, hcomp⟩
    intro x hxv hxq n hn
    rcases hdone x hxv hxq with rfl | hsucc
    · exact expand_covers maze x ⟨rest, st.visited, st.parent⟩ n hn
    · exact hsucc n hn
  · have hst : bfsMeasure maze st = bfsMeasure maze ⟨rest, st.visited, st.parent⟩ + 1 := by
      unfold bfsMeasure
      rw [hq]
      dsimp only
      rw [List.length_cons]
      omega
    omega

theorem bfs_init_inv (maze : Maze) (s : Cell) :
    BfsInv maze s ⟨[s], [s], []⟩ 0 := by
  refine ⟨⟨?_, ?_, ?_, ?_, ?_, ?_⟩, ?_, ?_, ?_, ?_, ?_, ?_, ?_⟩
  · exact List.mem_cons_self _ _
  · intro v hv
    rw [List.mem_singleton] at hv
    subst hv
    exact ⟨[], (isChain_nil_iff maze v v).mpr rfl⟩
  · intro pr hpr
    exact absurd hpr (List.not_mem_nil _)
  · exact List.nodup_nil
  · intro pr hpr
    exact absurd hpr (List.not_mem_nil _)
  · intro v hv hvs
    rw [List.mem_singleton] at hv
    exact absurd hv hvs
  · intro x hx
    exact hx
  · exact List.nodup_singleton _
  · exact List.nodup_singleton _
  · intro v hv
    rw [List.mem_singleton] at hv
    exact Or.inl hv
  · intro x hxv hxq
    rw [List.mem_singleton] at hxv
    subst hxv
    exact absurd (List.mem_singleton.mpr rfl) hxq
  · refine ⟨[s], [], rfl, ?_, fun x hx => absurd hx (List.not_mem_nil _)⟩
    intro x hx
    rw [List.mem_singleton] at hx
    subst hx
    exact isShortest_self maze x
  · intro u hu
    obtain ⟨p, hp, hl⟩ := hu
    have hpe : p = [] := List.length_eq_zero.mp (Nat.le_antisymm hl (Nat.zero_le _))
    subst hpe
    obtain rfl := (isChain_nil_iff maze s u).mp hp
    exact List.mem_cons_self _ _

theorem bfs_init_measure (maze : Maze) (s : Cell) :
    bfsMeasure maze ⟨[s], [s], []⟩ ≤ bfsFuel maze := by
  unfold bfsMeasure bfsFuel
  dsimp only
  simp only [List.length_cons, List.length_nil]
  omega

theorem bfsLoop_post (maze : Maze) (s g : Cell) :
    ∀ (fuel : ℕ) (st : BfsState) (d : ℕ), BfsInv maze s st d →
      bfsMeasure maze st ≤ fuel →
      BfsWInv maze s (bfsLoop maze g fuel st) ∧
      (∀ p, isChain maze s p g = true → g ∈ (bfsLoop maze g fuel st).visited) := by
  intro fuel
  induction fuel with
  | zero =>
    intro st d hinv hm
    have hqe : st.queue = [] := by
      unfold bfsMeasure at hm
      exact List.length_eq_zero.mp (by omega)
    rw [bfsLoop]
    exact ⟨hinv.w, fun p hp =>
      empty_queue_complete maze st hqe hinv.hdone p s g hinv.w.hsv hp⟩
  | succ fuel ih =>
    intro st d hinv hm
    cases hq : st.queue with
    | nil =>
      rw [bfsLoop, hq]
      exact ⟨hinv.w, fun p hp =>
        empty_queue_complete maze st hq hinv.hdone p s g hinv.w.hsv hp⟩
    | cons c rest =>
      by_cases hcg : c = g
      · subst hcg
        rw [bfsLoop, hq]
        dsimp only
        rw [if_pos rfl]
        refine ⟨⟨hinv.w.hsv, hinv.w.hreach, hinv.w.hpv, hinv.w.hpkeys,
          hinv.w.hpdist, hinv.w.hpcover⟩, fun p hp => ?_⟩
        exact hinv.hqv c (by rw [hq]; exact List.mem_cons_self _ _)
      · rw [bfsLoop, hq]
        dsimp only
        rw [if_neg hcg]
        obtain ⟨qa, qb, hql, hqa, hqb⟩ := hinv.hlevel
        rw [hq] at hql
        cases qa with
        | nil =>
          have hqball : ∀ x ∈ st.queue, isShortest maze s x (d + 1) := by
            intro x hx
            apply hqb
            rw [List.nil_append] at hql
            rw [hq] at hx
            rw [← hql]
            exact hx
          have hinv2 : BfsInv maze s st (d + 1) := level_shift maze s st d hinv hqball
          have hcs : isShortest maze s c (d + 1) :=
            hqball c (by rw [hq]; exact List.mem_cons_self _ _)
          obtain ⟨hinv3, hmeas3⟩ := pop_expand_inv maze s c rest st (d + 1) hinv2 hq hcs
          exact ih (expand maze c ⟨rest, st.visited, st.parent⟩) (d + 1) hinv3 (by omega)
        | cons a qa2 =>
          rw [List.cons_append] at hql
          injection hql with h1 h2
          have hcs : isShortest maze s c d := by
            rw [h1]
            exact hqa a (List.mem_cons_self _ _)
          obtain ⟨hinv3, hmeas3⟩ := pop_expand_inv maze s c rest st d hinv hq hcs
          exact ih (expand maze c ⟨rest, st.visited, st.parent⟩) d hinv3 (by omega)

theorem reconstruct_spec (maze : Maze) (s : Cell) (F : BfsState)
    (hw : BfsWInv maze s F) :
    ∀ (fuel : ℕ) (cur : Cell) (k : ℕ), cur ∈ F.visited → cur ≠ s →
      isShortest maze s cur k → k ≤ fuel →
      ∃ c1, reconstruct F.parent s fuel cur = c1 ∧
        (c1, s) ∈ F.parent ∧ isShortest maze s c1 1 ∧
        (∃ q, isChain maze c1 q cur = true ∧ q.length + 1 = k) := by
  intro fuel
  induction fuel with
  | zero =>
    intro cur k hcv hcs hsh hk
    obtain ⟨⟨p, hp, hpl⟩, -⟩ := hsh
    have hpe : p = [] := List.length_eq_zero.mp (by omega)
    subst hpe
    exact absurd ((isChain_nil_iff maze s cur).mp hp) (fun h => hcs h.symm)
  | succ fuel ih =>
    intro cur k hcv hcs hsh hk
    have hlk : (List.lookup cur F.parent).isSome = true := hw.hpcover cur hcv hcs
    obtain ⟨p, hp⟩ := Option.isSome_iff_exists.mp hlk
    have hmem : (cur, p) ∈ F.parent := lookup_mem F.parent cur p hp
    obtain ⟨hcv2, hpv2, hedge, hcns⟩ := hw.hpv (cur, p) hmem
    obtain ⟨k1, hsp, hscur⟩ := hw.hpdist (cur, p) hmem
    have hk1 : k1 + 1 = k := isShortest_unique maze s cur (k1 + 1) k hscur hsh
    rw [reconstruct, hp]
    dsimp only
    by_cases hps : p = s
    · rw [if_pos hps]
      have hk10 : k1 = 0 := isShortest_unique maze s p k1 0 hsp
        (by rw [hps]; exact isShortest_self maze s)
      refine ⟨cur, rfl, by rw [← hps]; exact hmem, ?_, ⟨[], ?_, ?_⟩⟩
      · rw [hk10] at hscur
        exact hscur
      · exact (isChain_nil_iff maze cur cur).mpr rfl
      · simp only [List.length_nil]
        omega
    · rw [if_neg hps]
      have hk1le : k1 ≤ fuel := by omega
      obtain ⟨c1, hrec, hc1p, hc1s, q, hqc, hql⟩ :=
        ih p k1 hpv2 hps hsp hk1le
      refine ⟨c1, hrec, hc1p, hc1s, q ++ [cur], ?_, ?_⟩
      · exact isChain_append_edge maze q c1 p cur hqc hedge
      · simp only [List.length_append, List.length_cons, List.length_nil]
        omega

/-- Claim C2 (amended): for every maze, block size and pair of positions whose
straight line of sight is blocked (`line_of_sight` returns `false`): when the
agent's cell and the viewer's cell are both in bounds, and the viewer's cell
is walkable and reachable from the agent's cell through 4-directionally
adjacent walkable cells (neighbours enumerated in the fixed order
`+X, -X, +Y, -Y` of `dirs`), `next_step_bfs` returns the centre of a cell
adjacent to the agent's cell that lies on some shortest walk - its remaining
shortest distance to the viewer's cell is exactly `L - 1` when the shortest
walk has length `L`; when the viewer's cell is unreachable, not walkable or
out of bounds, `next_step_bfs` returns `none` and the NPC update leaves the
agent's position unchanged for the frame. -/
theorem next_step_bfs_correct (maze : Maze) (fx fy tx ty : ℚ) (bs losFuel : ℕ)
    (hlos : line_of_sight maze fx fy tx ty bs losFuel = false) :
    ((in_bounds maze (cell_indices_from_pos fx fy bs).1
        (cell_indices_from_pos fx fy bs).2 = true) →
     (in_bounds maze (cell_indices_from_pos tx ty bs).1
        (cell_indices_from_pos tx ty bs).2 = true) →
     is_walkable_cell maze (cell_indices_from_pos tx ty bs).1
        (cell_indices_from_pos tx ty bs).2 = true →
     (∃ p, isChain maze (cell_indices_from_pos fx fy bs) p
        (cell_indices_from_pos tx ty bs) = true) →
     ∃ c1 L, edgeB maze (cell_indices_from_pos fx fy bs) c1 = true ∧
       isShortest maze (cell_indices_from_pos fx fy bs)
         (cell_indices_from_pos tx ty bs) L ∧
       isShortest maze c1 (cell_indices_from_pos tx ty bs) (L - 1) ∧
       next_step_bfs maze fx fy tx ty bs =
         some (((c1.1 : ℚ) + 1 / 2) * (bs : ℚ), ((c1.2 : ℚ) + 1 / 2) * (bs : ℚ))) ∧
    (((¬∃ p, isChain maze (cell_indices_from_pos fx fy bs) p
        (cell_indices_from_pos tx ty bs) = true) ∨
      in_bounds maze (cell_indices_from_pos tx ty bs).1
        (cell_indices_from_pos tx ty bs).2 = false ∨
      is_walkable_cell maze (cell_indices_from_pos tx ty bs).1
        (cell_indices_from_pos tx ty bs).2 = false) →
     next_step_bfs maze fx fy tx ty bs = none ∧
     update_npc_move maze bs fx fy (next_step_bfs maze fx fy tx ty bs) = (fx, fy)) := by
  constructor
  · intro hsb hgb hgw hreach
    obtain ⟨p0, hp0⟩ := hreach
    have hsg : cell_indices_from_pos fx fy bs ≠ cell_indices_from_pos tx ty bs := by
      intro he
      exact line_of_sight_false_imp maze fx fy tx ty bs losFuel hlos
        ⟨he, by rw [he]; exact hgw⟩
    obtain ⟨hwF, hgmem⟩ := bfsLoop_post maze (cell_indices_from_pos fx fy bs)
      (cell_indices_from_pos tx ty bs) (bfsFuel maze)
      ⟨[cell_indices_from_pos fx fy bs], [cell_indices_from_pos fx fy bs], []⟩ 0
      (bfs_init_inv maze _) (bfs_init_measure maze _)
    have hgvis := hgmem p0 hp0
    obtain ⟨L, hsL, -⟩ := exists_isShortest maze _ _ p0 hp0
    have hL1 : 1 ≤ L := by
      rcases Nat.eq_zero_or_pos L with h0 | h1
      · subst h0
        obtain ⟨⟨pp, hpp, hppl⟩, -⟩ := hsL
        have hppe : pp = [] := List.length_eq_zero.mp hppl
        subst hppe
        exact absurd ((isChain_nil_iff maze _ _).mp hpp) hsg
      · exact h1
    have hLle : L ≤ numCells maze + 1 :=
      le_trans (isShortest_le_numCells maze _ _ L hsL) (by omega)
    have hgs : cell_indices_from_pos tx ty bs ≠ cell_indices_from_pos fx fy bs :=
      fun he => hsg he.symm
    obtain ⟨c1, hrec, hc1p, hc1s, q, hqc, hql⟩ := reconstruct_spec maze
      (cell_indices_from_pos fx fy bs) _ hwF (numCells maze + 1)
      (cell_indices_from_pos tx ty bs) L hgvis hgs hsL hLle
    obtain ⟨-, -, hedge, -⟩ := hwF.hpv (c1, cell_indices_from_pos fx fy bs) hc1p
    have hshort2 : isShortest maze c1 (cell_indices_from_pos tx ty bs) (L - 1) := by
      constructor
      · exact ⟨q, hqc, by omega⟩
      · intro r hr
        have hchain : isChain maze (cell_indices_from_pos fx fy bs) (c1 :: r)
            (cell_indices_from_pos tx ty bs) = true := by
          rw [isChain_cons_iff]
          exact ⟨hedge, hr⟩
        have hlb := hsL.2 (c1 :: r) hchain
        simp only [List.length_cons] at hlb
        omega
    refine ⟨c1, L, hedge, hsL, hshort2, ?_⟩
    simp only [next_step_bfs]
    rw [if_neg hsg, if_neg (by simp [hsb, hgb]), if_neg (by simp [hgw])]
    have hcont : (bfsLoop maze (cell_indices_from_pos tx ty bs) (bfsFuel maze)
        ⟨[cell_indices_from_pos fx fy bs], [cell_indices_from_pos fx fy bs],
          []⟩).visited.contains (cell_indices_from_pos tx ty bs) = true :=
      List.elem_iff.mpr hgvis
    rw [if_neg (by rw [hcont]; decide), hrec]
  · intro hneg
    have hnone : next_step_bfs maze fx fy tx ty bs = none := by
      simp only [next_step_bfs]
      by_cases hsg : cell_indices_from_pos fx fy bs = cell_indices_from_pos tx ty bs
      · rw [if_pos hsg]
      · rw [if_neg hsg]
        by_cases hsb : in_bounds maze (cell_indices_from_pos fx fy bs).1
            (cell_indices_from_pos fx fy bs).2 = true
        · by_cases hgb : in_bounds maze (cell_indices_from_pos tx ty bs).1
              (cell_indices_from_pos tx ty bs).2 = true
          · rw [if_neg (by simp [hsb, hgb])]
            by_cases hgw : is_walkable_cell maze (cell_indices_from_pos tx ty bs).1
                (cell_indices_from_pos tx ty bs).2 = true
            · rw [if_neg (by simp [hgw])]
              rcases hneg with hnr | hno | hnw
              · obtain ⟨hwF, -⟩ := bfsLoop_post maze (cell_indices_from_pos fx fy bs)
                  (cell_indices_from_pos tx ty bs) (bfsFuel maze)
                  ⟨[cell_indices_from_pos fx fy bs], [cell_indices_from_pos fx fy bs], []⟩ 0
                  (bfs_init_inv maze _) (bfs_init_measure maze _)
                have hgnv : cell_indices_from_pos tx ty bs ∉
                    (bfsLoop maze (cell_indices_from_pos tx ty bs) (bfsFuel maze)
                      ⟨[cell_indices_from_pos fx fy bs],
                       [cell_indices_from_pos fx fy bs], []⟩).visited :=
                  fun hv => hnr (hwF.hreach _ hv)
                have hcf : (bfsLoop maze (cell_indices_from_pos tx ty bs) (bfsFuel maze)
                    ⟨[cell_indices_from_pos fx fy bs],
                     [cell_indices_from_pos fx fy bs], []⟩).visited.contains
                    (cell_indices_from_pos tx ty bs) = false :=
                  Bool.eq_false_iff.mpr (fun hc => hgnv (List.elem_iff.mp hc))
                rw [if_pos (by rw [hcf]; rfl)]
              · rw [hgb] at hno
                exact absurd hno (by simp)
              · rw [hgw] at hnw
                exact absurd hnw (by simp)
            · rw [if_pos (by simp [hgw])]
          · rw [if_pos (by simp [hgb])]
        · rw [if_pos (by simp [hsb])]
    refine ⟨hnone, ?_⟩
    rw [hnone]
    rfl

/-- Counterexample to claim C2 as stated: in maze `[[' ']]` with block size
10, the agent at `(-5, 5)` occupies the out-of-bounds cell `(-1, 0)` and the
viewer at `(5, 5)` the walkable in-bounds cell `(0, 0)`; the line of sight is
blocked (the agent stands in a non-walkable cell), and the viewer's cell IS
reachable through 4-adjacent walkable cells (one `+X` step), yet
`next_step_bfs` returns `none`: the claim's none-branch conditions (viewer
cell unreachable, not walkable, or out of bounds) all fail to hold, because
the `none` is caused by the AGENT's cell being out of bounds. -/
theorem next_step_bfs_oob_agent_cex :
    line_of_sight [[' ']] (-5) 5 5 5 10 64 = false ∧
    isChain [[' ']] (cell_indices_from_pos (-5) 5 10) [(0, 0)]
      (cell_indices_from_pos 5 5 10) = true ∧
    in_bounds [[' ']] (cell_indices_from_pos 5 5 10).1
      (cell_indices_from_pos 5 5 10).2 = true ∧
    is_walkable_cell [[' ']] (cell_indices_from_pos 5 5 10).1
      (cell_indices_from_pos 5 5 10).2 = true ∧
    next_step_bfs [[' ']] (-5) 5 5 5 10 = none := by
  have hs : cell_indices_from_pos (-5) 5 10 = (-1, 0) := by
    unfold cell_indices_from_pos
    norm_num
  have hg : cell_indices_from_pos 5 5 10 = (0, 0) := by
    unfold cell_indices_from_pos
    norm_num
  refine ⟨?_, ?_, ?_, ?_, ?_⟩
  · simp only [line_of_sight, hs, hg]
    decide
  · rw [hs, hg]
    decide
  · rw [hg]
    decide
  · rw [hg]
    decide
  · simp only [next_step_bfs, hs, hg]
    decide

theorem next_step_bfs_correct_witness :
    line_of_sight [[' ', '#', ' '], [' ', ' ', ' ']] 5 5 25 5 10 2 = false ∧
    (∃ c1 L, edgeB [[' ', '#', ' '], [' ', ' ', ' ']]
        (cell_indices_from_pos 5 5 10) c1 = true ∧
      isShortest [[' ', '#', ' '], [' ', ' ', ' ']] (cell_indices_from_pos 5 5 10)
        (cell_indices_from_pos 25 5 10) L ∧
      isShortest [[' ', '#', ' '], [' ', ' ', ' ']] c1
        (cell_indices_from_pos 25 5 10) (L - 1) ∧
      next_step_bfs [[' ', '#', ' '], [' ', ' ', ' ']] 5 5 25 5 10 =
        some (((c1.1 : ℚ) + 1 / 2) * ((10 : ℕ) : ℚ),
              ((c1.2 : ℚ) + 1 / 2) * ((10 : ℕ) : ℚ))) := by
  have hs : cell_indices_from_pos (5 : ℚ) 5 10 = (0, 0) := by
    unfold cell_indices_from_pos
    norm_num
  have hg : cell_indices_from_pos (25 : ℚ) 5 10 = (2, 0) := by
    unfold cell_indices_from_pos
    norm_num
  have hlos : line_of_sight [[' ', '#', ' '], [' ', ' ', ' ']] 5 5 25 5 10 2 = false := by
    simp only [line_of_sight, hs, hg]
    decide
  refine ⟨hlos, ?_⟩
  exact (next_step_bfs_correct [[' ', '#', ' '], [' ', ' ', ' ']] 5 5 25 5 10 2 hlos).1
    (by rw [hs]; decide) (by rw [hg]; decide) (by rw [hg]; decide)
    ⟨[(0, 1), (1, 1), (2, 1), (2, 0)], by rw [hs, hg]; decide⟩

/-- Claim C7: for a positive block size, `can_move_to` holds exactly when the
maze is empty, or the enclosing grid cell (floor of the coordinate divided by
the block size, on each axis) is inside the jagged grid bounds and carries
symbol `' '` or `'R'`. -/
theorem can_move_to_iff (maze : Maze) (x y : ℚ) (bs : ℕ) (hbs : 0 < bs) :
    can_move_to maze x y bs = true ↔
      (maze = [] ∨
        (in_bounds maze ⌊x / (bs : ℚ)⌋ ⌊y / (bs : ℚ)⌋ = true ∧
          (cellAt maze (⌊x / (bs : ℚ)⌋).toNat (⌊y / (bs : ℚ)⌋).toNat = ' ' ∨
           cellAt maze (⌊x / (bs : ℚ)⌋).toNat (⌊y / (bs : ℚ)⌋).toNat = 'R'))) := by
  by_cases hm : maze = []
  · simp [can_move_to, hm]
  · have hbsq : (0 : ℚ) < (bs : ℚ) := by exact_mod_cast hbs
    have hme : ¬(maze.isEmpty = true) := by simpa [List.isEmpty_iff] using hm
    by_cases hx : x < 0
    · have hfx : ⌊x / (bs : ℚ)⌋ < 0 := by
        apply Int.floor_lt.mpr
        simpa using div_neg_of_neg_of_pos hx hbsq
      have hL : can_move_to maze x y bs = false := by
        simp only [can_move_to]
        rw [if_neg hme, if_pos (by simp [hx])]
      rw [hL]
      simp only [Bool.false_eq_true, false_iff, not_or]
      refine ⟨hm, ?_⟩
      rintro ⟨hb, -⟩
      rw [in_bounds_iff] at hb
      omega
    · by_cases hy : y < 0
      · have hfy : ⌊y / (bs : ℚ)⌋ < 0 := by
          apply Int.floor_lt.mpr
          simpa using div_neg_of_neg_of_pos hy hbsq
        have hL : can_move_to maze x y bs = false := by
          simp only [can_move_to]
          rw [if_neg hme, if_pos (by simp [hy])]
        rw [hL]
        simp only [Bool.false_eq_true, false_iff, not_or]
        refine ⟨hm, ?_⟩
        rintro ⟨hb, -⟩
        rw [in_bounds_iff] at hb
        omega
      · push_neg at hx hy
        have hix : (⌊x / (bs : ℚ)⌋).toNat = ⌊x⌋₊ / bs := by
          rw [Int.floor_toNat, Nat.floor_div_nat]
        have hiy : (⌊y / (bs : ℚ)⌋).toNat = ⌊y⌋₊ / bs := by
          rw [Int.floor_toNat, Nat.floor_div_nat]
        have hzx : ⌊x / (bs : ℚ)⌋ = ((⌊x⌋₊ / bs : ℕ) : ℤ) := by
          rw [← hix, Int.toNat_of_nonneg (Int.floor_nonneg.mpr (div_nonneg hx hbsq.le))]
        have hzy : ⌊y / (bs : ℚ)⌋ = ((⌊y⌋₊ / bs : ℕ) : ℤ) := by
          rw [← hiy, Int.toNat_of_nonneg (Int.floor_nonneg.mpr (div_nonneg hy hbsq.le))]
        rw [hzx, hzy, in_bounds_iff]
        simp only [Int.toNat_natCast]
        simp only [can_move_to]
        rw [if_neg hme,
            if_neg (by simp only [Bool.or_eq_true, decide_eq_true_eq, not_or, not_lt]
                       exact ⟨hx, hy⟩)]
        constructor
        · intro h
          split_ifs at h with g1 g2
          simp only [List.isEmpty_iff, Bool.or_eq_true, decide_eq_true_eq,
            not_or, not_le] at g2
          right
          refine ⟨⟨Int.natCast_nonneg _, by exact_mod_cast not_le.mp g1,
                   Int.natCast_nonneg _, by exact_mod_cast g2.2⟩, ?_⟩
          simpa [beq_iff_eq] using h
        · rintro (hcontr | ⟨⟨-, hj, -, hi⟩, hc⟩)
          · exact absurd hcontr hm
          · have hj' : ⌊y⌋₊ / bs < maze.length := by exact_mod_cast hj
            have hi' : ⌊x⌋₊ / bs < (rowAt maze (⌊y⌋₊ / bs)).length := by exact_mod_cast hi
            rw [if_neg (not_le.mpr hj'), if_neg ?_]
            · simpa [beq_iff_eq] using hc
            · simp only [List.isEmpty_iff, Bool.or_eq_true, decide_eq_true_eq, not_or, not_le]
              refine ⟨fun hrow => ?_, hi'⟩
              rw [hrow] at hi'
              simp at hi'

/-- Witness for C7: the theorem applied at a concrete maze and point. -/
theorem can_move_to_iff_witness :
    can_move_to [[' ', '#'], [' ', ' ']] 5 15 10 = true := by
  rw [can_move_to_iff [[' ', '#'], [' ', ' ']] 5 15 10 (by decide)]
  right
  constructor
  · norm_num [in_bounds, rowAt]
  · left
    norm_num [cellAt, rowAt]

/-! ## Claim C1: axis sliding is not evaluated against the original position -/

/-- Counterexample for claim C1: at block size 10, maze
`[[' ', '#'], [' ', ' ']]`, position `(5, 15)` and displacement `(10, -10)`
the combined destination `(15, 5)` is blocked while BOTH single-axis
destinations taken from the original position are free; the code commits only
the X slide (final `(15, 15)`), the axis-order-swapped variant commits only
the Y slide (final `(5, 5)`), and the spec's evaluate-both-against-the-
original rule would produce `(15, 5)`.  So the Y-only destination is not
tested against the original position and the outcome depends on the axis
evaluation order. -/
theorem slide_order_dependent_cex :
    process_events_move [[' ', '#'], [' ', ' ']] 10 5 15 10 (-10) = (15, 15) ∧
    slide_move_yx [[' ', '#'], [' ', ' ']] 10 5 15 15 5 = (5, 5) ∧
    slide_move_indep [[' ', '#'], [' ', ' ']] 10 5 15 15 5 = (15, 5) ∧
    can_move_to [[' ', '#'], [' ', ' ']] 15 5 10 = false ∧
    can_move_to [[' ', '#'], [' ', ' ']] 5 5 10 = true ∧
    (15, 15) ≠ ((5 : ℚ), (5 : ℚ)) := by
  refine ⟨?_, ?_, ?_, ?_, ?_, ?_⟩
  · norm_num [process_events_move, slide_move, can_move_to, cellAt, rowAt] <;> simp +decide
  · norm_num [slide_move_yx, can_move_to, cellAt, rowAt] <;> simp +decide
  · norm_num [slide_move_indep, can_move_to, cellAt, rowAt] <;> simp +decide
  · norm_num [can_move_to, cellAt, rowAt] <;> decide
  · norm_num [can_move_to, cellAt, rowAt] <;> decide
  · norm_num

/-- Claim C1 (amended): movement resolution first tests the combined
destination and commits both axes when it is occupiable; otherwise the X-only
destination is tested against the original Y and committed when occupiable
(in which case the Y axis cannot also commit, so the mover stops at the
corner), and only when the X slide is rejected is the Y-only destination
tested against the original X; sliding along whichever axis remains open is
therefore permitted, with the X axis taking priority. -/
theorem slide_move_resolution (maze : Maze) (bs : ℕ) (px py nx ny : ℚ) :
    (can_move_to maze nx ny bs = true → slide_move maze bs px py nx ny = (nx, ny)) ∧
    (can_move_to maze nx ny bs = false →
      can_move_to maze nx py bs = true →
        slide_move maze bs px py nx ny = (nx, py)) ∧
    (can_move_to maze nx ny bs = false →
      can_move_to maze nx py bs = false →
      can_move_to maze px ny bs = true →
        slide_move maze bs px py nx ny = (px, ny)) ∧
    (can_move_to maze nx ny bs = false →
      can_move_to maze nx py bs = false →
      can_move_to maze px ny bs = false →
        slide_move maze bs px py nx ny = (px, py)) := by
  refine ⟨?_, ?_, ?_, ?_⟩
  · intro h1; simp [slide_move, h1]
  · intro h1 h2; simp [slide_move, h1, h2]
  · intro h1 h2 h3; simp [slide_move, h1, h2, h3]
  · intro h1 h2 h3; simp [slide_move, h1, h2, h3]

/-- Witness for the amended C1: diagonal entry into the L-corner of the
counterexample maze stops at the corner, sliding along the open X axis. -/
theorem slide_move_resolution_witness :
    slide_move [[' ', '#'], [' ', ' ']] 10 5 15 15 5 = (15, 15) := by
  exact (slide_move_resolution [[' ', '#'], [' ', ' ']] 10 5 15 15 5).2.1
    (by norm_num [can_move_to, cellAt, rowAt] <;> decide)
    (by norm_num [can_move_to, cellAt, rowAt] <;> decide)

/-! ## Claim C10: every committed position is pre-validated -/

theorem slide_move_validated (maze : Maze) (bs : ℕ) (px py nx ny : ℚ) :
    slide_move maze bs px py nx ny = (px, py) ∨
      can_move_to maze (slide_move maze bs px py nx ny).1
        (slide_move maze bs px py nx ny).2 bs = true := by
  by_cases h1 : can_move_to maze nx ny bs = true
  · right; simp [slide_move, h1]
  · rw [Bool.not_eq_true] at h1
    by_cases h2 : can_move_to maze nx py bs = true
    · right; simp [slide_move, h1, h2]
    · rw [Bool.not_eq_true] at h2
      by_cases h3 : can_move_to maze px ny bs = true
      · right; simp [slide_move, h1, h2, h3]
      · rw [Bool.not_eq_true] at h3
        left; simp [slide_move, h1, h2, h3]

/-- Claim C10: one viewer movement update (`process_events`) and one NPC
position update (`update_npcs`, either branch, any candidate destination)
leave the entity either exactly where it was or at a point that satisfies
`can_move_to` at commit time. -/
theorem move_commits_validated (maze : Maze) (bs : ℕ) (px py dx dy : ℚ)
    (cand : Option (ℚ × ℚ)) :
    (process_events_move maze bs px py dx dy = (px, py) ∨
      can_move_to maze (process_events_move maze bs px py dx dy).1
        (process_events_move maze bs px py dx dy).2 bs = true) ∧
    (update_npc_move maze bs px py cand = (px, py) ∨
      can_move_to maze (update_npc_move maze bs px py cand).1
        (update_npc_move maze bs px py cand).2 bs = true) := by
  constructor
  · unfold process_events_move
    by_cases h : (dx == 0 && dy == 0) = true
    · left; simp [h]
    · rw [Bool.not_eq_true] at h
      simpa [h] using slide_move_validated maze bs px py (px + dx) (py + dy)
  · match cand with
    | none => left; rfl
    | some (nx, ny) => simpa [update_npc_move] using slide_move_validated maze bs px py nx ny


/-! ## Texture sampling: alpha policy (C9) -/

theorem sample_pixel_alpha_one (img : ImageBuf)
    (hz : ∀ k, k % 4 = 3 → img.data.getD k 0 = 0) (xx yy : ℕ) :
    (sample_pixel img xx yy).2.2.2 = 1 := by
  unfold sample_pixel
  dsimp only
  by_cases h : (yy * img.w + xx) * 4 + 3 < img.data.length
  · rw [if_pos h]
    dsimp only
    rw [hz ((yy * img.w + xx) * 4 + 3) (by omega)]
    norm_num
  · rw [if_neg h]

theorem checkerboard_alpha (u v : ℚ) : (checkerboard u v).a = 255 := by
  unfold checkerboard
  dsimp only
  split_ifs <;> rfl

theorem bilinear_alpha_one (img : ImageBuf)
    (hz : ∀ k, k % 4 = 3 → img.data.getD k 0 = 0) (u v : ℚ) :
    (bilinear img u v).2.2.2 = 1 := by
  unfold bilinear
  dsimp only
  rw [sample_pixel_alpha_one img hz, sample_pixel_alpha_one img hz,
      sample_pixel_alpha_one img hz, sample_pixel_alpha_one img hz]
  unfold lerp
  ring

/-- Claim C9: wall/pillar (and door) sampling maps a source pixel whose
alpha is exactly zero to a fully opaque pixel value - in particular a wall
image whose every alpha byte is zero always samples with output alpha 255 -
and returns the deterministic procedural checkerboard when the requested
image is unavailable; agent-sprite and collectible sampling instead preserve
the raw source alpha, so the same all-transparent image samples with alpha 0
there. -/
theorem texture_sampling_alpha_policy :
    (∀ (img : ImageBuf) (xx yy : ℕ),
      (yy * img.w + xx) * 4 + 3 < img.data.length →
      img.data.getD ((yy * img.w + xx) * 4 + 3) 0 = 0 →
      (sample_pixel img xx yy).2.2.2 = 1) ∧
    (∀ (t : TextureAtlas) (kind : TextureKind) (u v : ℚ) (img : ImageBuf),
      atlasImage t kind = some img →
      (∀ k, k % 4 = 3 → img.data.getD k 0 = 0) →
      (sample t kind u v).a = 255) ∧
    (∀ (t : TextureAtlas) (kind : TextureKind) (u v : ℚ),
      atlasImage t kind = none →
      sample t kind u v = checkerboard (fractAbs u) (fractAbs v)) ∧
    (∀ (t : TextureAtlas) (u v : ℚ) (img : ImageBuf) (col : Color),
      t.npc = some img →
      (∀ k, k % 4 = 3 → img.data.getD k 0 = 0) →
      sample_npc t u v = some col → col.a = 0) ∧
    (∀ (t : TextureAtlas) (u v : ℚ) (fo : ℕ) (img : ImageBuf) (col : Color),
      t.coin = some img →
      (∀ k, k % 4 = 3 → img.data.getD k 0 = 0) →
      sample_coin t u v fo = some col → col.a = 0) := by
  refine ⟨?_, ?_, ?_, ?_, ?_⟩
  · intro img xx yy h1 h2
    unfold sample_pixel
    dsimp only
    rw [if_pos h1]
    dsimp only
    rw [h2]
    norm_num
  · intro t kind u v img himg hz
    unfold sample
    rw [himg]
    dsimp only
    by_cases hlen : 4 ≤ img.data.length
    · rw [if_pos hlen]
      have ha : (bilinear img (fractAbs u) (fractAbs v)).2.2.2 = 1 :=
        bilinear_alpha_one img hz (fractAbs u) (fractAbs v)
      rw [ha]
      have h255 : toU8 ((1 : ℚ) * 255) = 255 := by
        norm_num [toU8, ratTrunc]
      rw [h255]
      split_ifs with hblack
      · exact checkerboard_alpha _ _
      · rfl
    · rw [if_neg hlen]
      exact checkerboard_alpha _ _
  · intro t kind u v hnone
    unfold sample
    rw [hnone]
  · intro t u v img col hnpc hz hcol
    unfold sample_npc at hcol
    rw [hnpc] at hcol
    dsimp only at hcol
    split_ifs at hcol with h1 h2
    rw [Option.some.injEq] at hcol
    rw [← hcol]
    exact hz _ (by omega)
  · intro t u v fo img col hcoin hz hcol
    unfold sample_coin at hcol
    rw [hcoin] at hcol
    dsimp only at hcol
    split_ifs at hcol with h1 h2
    rw [Option.some.injEq] at hcol
    rw [← hcol]
    exact hz _ (by omega)

theorem texAlphaZeros : ∀ k, k % 4 = 3 → ([7, 7, 7, 0] : List ℕ).getD k 0 = 0 := by
  intro k hk
  match k, hk with
  | 0, hk => simp at hk
  | 1, hk => simp at hk
  | 2, hk => simp at hk
  | 3, _ => rfl
  | (n + 4), _ => exact List.getD_eq_default _ _ (by simp)

/-- Witness for C9 on concrete one-pixel images: an all-transparent wall
image samples opaque, a missing pillar image yields the checkerboard, and
the same all-transparent image as NPC sprite samples with alpha 0. -/
theorem texture_sampling_alpha_policy_witness :
    (sample ⟨some ⟨1, 1, [7, 7, 7, 0]⟩, none, some ⟨1, 1, [7, 7, 7, 0]⟩, none, none,
        none, none, some ⟨1, 1, [7, 7, 7, 0]⟩, none, none⟩ .Wall 0 0).a = 255 ∧
    sample ⟨some ⟨1, 1, [7, 7, 7, 0]⟩, none, some ⟨1, 1, [7, 7, 7, 0]⟩, none, none,
        none, none, some ⟨1, 1, [7, 7, 7, 0]⟩, none, none⟩ .Pillar 0 0 =
      checkerboard (fractAbs 0) (fractAbs 0) ∧
    (∀ col, sample_npc ⟨some ⟨1, 1, [7, 7, 7, 0]⟩, none, some ⟨1, 1, [7, 7, 7, 0]⟩,
        none, none, none, none, some ⟨1, 1, [7, 7, 7, 0]⟩, none, none⟩ 0 0 =
          some col → col.a = 0) := by
  obtain ⟨-, h2, h3, h4, -⟩ := texture_sampling_alpha_policy
  refine ⟨?_, ?_, ?_⟩
  · exact h2 _ .Wall 0 0 ⟨1, 1, [7, 7, 7, 0]⟩ rfl texAlphaZeros
  · exact h3 _ .Pillar 0 0 rfl
  · intro col hcol
    exact h4 _ 0 0 ⟨1, 1, [7, 7, 7, 0]⟩ col rfl texAlphaZeros hcol

/-! ## Renderer sprite occlusion (C5) -/

/-- Claim C5: in both sprite passes of `render_world` (agents and
collectibles), if the sprite's straight-line distance to the viewer exceeds
the depth-buffer value stored for a pixel column (the pixel column index
divided by the column step) minus the tolerance `1.0`, then the pass writes
no pixel of that sprite in that pixel column. -/
theorem sprite_occlusion_skips_column (t : TextureAtlas) (depth : List ℚ)
    (column_step fbH : ℕ) (collected : Bool) (dist : ℚ)
    (sx half w top bottom : ℤ) (fo : ℕ) (px0 : ℤ)
    (hocc : depth.getD (px0.toNat / column_step) 0 - 1 < dist) :
    (∀ y col, (px0, y, col) ∉
      npcSpriteWrites t depth column_step fbH dist sx half w top bottom) ∧
    (∀ y col, (px0, y, col) ∉
      coinSpriteWrites t depth column_step fbH collected dist sx half w top bottom fo) := by
  constructor
  · intro y col hmem
    unfold npcSpriteWrites at hmem
    rw [List.mem_flatMap] at hmem
    obtain ⟨xoff, -, hin⟩ := hmem
    dsimp only at hin
    split_ifs at hin with g1 g2 g3
    · exact absurd hin (List.not_mem_nil _)
    · exact absurd hin (List.not_mem_nil _)
    · exact absurd hin (List.not_mem_nil _)
    · rw [List.mem_filterMap] at hin
      obtain ⟨y1, -, hy1⟩ := hin
      rcases hs : sample_npc t (((xoff + half : ℤ) : ℚ) / ((w : ℤ) : ℚ))
          (((y1 : ℚ) - (top : ℚ)) / ((bottom : ℚ) - (top : ℚ) + 1)) with _ | col2
      · rw [hs] at hy1
        exact absurd hy1 (by simp)
      · rw [hs] at hy1
        dsimp only at hy1
        split_ifs at hy1
        rw [Option.some.injEq] at hy1
        have hpx : sx + xoff = px0 := congrArg Prod.fst hy1
        rw [hpx] at g3
        exact g3 hocc
  · intro y col hmem
    unfold coinSpriteWrites at hmem
    split_ifs at hmem
    · exact absurd hmem (List.not_mem_nil _)
    · rw [List.mem_flatMap] at hmem
      obtain ⟨xoff, -, hin⟩ := hmem
      dsimp only at hin
      split_ifs at hin with g1 g2 g3
      · exact absurd hin (List.not_mem_nil _)
      · exact absurd hin (List.not_mem_nil _)
      · exact absurd hin (List.not_mem_nil _)
      · rw [List.mem_filterMap] at hin
        obtain ⟨y1, -, hy1⟩ := hin
        rcases hs : sample_coin t (((xoff + half : ℤ) : ℚ) / ((w : ℤ) : ℚ))
            (((y1 : ℚ) - (top : ℚ)) / ((bottom : ℚ) - (top : ℚ) + 1)) fo with _ | col2
        · rw [hs] at hy1
          exact absurd hy1 (by simp)
        · rw [hs] at hy1
          dsimp only at hy1
          split_ifs at hy1
          rw [Option.some.injEq] at hy1
          have hpx : sx + xoff = px0 := congrArg Prod.fst hy1
          rw [hpx] at g3
          exact g3 hocc

/-- Witness for C5: a sprite at distance 50 against a depth buffer storing 3
writes nothing in pixel column 0. -/
theorem sprite_occlusion_skips_column_witness :
    (∀ y col, (0, y, col) ∉
      npcSpriteWrites ⟨none, none, none, none, none, none, none, none, none, none⟩
        [3] 1 100 50 0 2 4 10 20) ∧
    (∀ y col, (0, y, col) ∉
      coinSpriteWrites ⟨none, none, none, none, none, none, none, none, none, none⟩
        [3] 1 100 false 50 0 2 4 10 20 0) :=
  sprite_occlusion_skips_column _ [3] 1 100 false 50 0 2 4 10 20 0 0 (by norm_num)

/-! ## Minimap fog of war (C6, modelled from the spec) -/

theorem revealSeq_mono (radius : ℤ) :
    ∀ (viewers : List (ℤ × ℤ)) (disc : ℤ × ℤ → Bool) (c : ℤ × ℤ),
      disc c = true → revealSeq radius viewers disc c = true := by
  intro viewers
  induction viewers with
  | nil => intro disc c h; exact h
  | cons v rest ih =>
    intro disc c h
    exact ih (reveal disc v radius) c (by simp [reveal, h])

/-- Claim C6 (modelled from the spec; the fog-aware `render_minimap` that
`main.rs` calls is not among the provided sources): the discovered grid is
pointwise non-decreasing over any sequence of viewer positions; before
drawing, every cell within the fixed radius of the viewer's cell is revealed;
undiscovered cells render as the uniform fog colour block and discovered
cells as their per-symbol colour block; an agent marker is drawn exactly
when the agent's occupying cell is discovered. -/
theorem minimap_fog_of_war (maze : Maze) (radius : ℤ) (disc : ℤ × ℤ → Bool)
    (viewers : List (ℤ × ℤ)) (viewer c : ℤ × ℤ) :
    (disc c = true → revealSeq radius viewers disc c = true) ∧
    (chebyshev c viewer ≤ radius → reveal disc viewer radius c = true) ∧
    (disc c = false → minimapCellColor maze disc c = fogColor) ∧
    (disc c = true →
      minimapCellColor maze disc c = symbolColor (cellAt maze c.1.toNat c.2.toNat)) ∧
    npcMarkerDrawn disc c = disc c := by
  refine ⟨revealSeq_mono radius viewers disc c, ?_, ?_, ?_, rfl⟩
  · intro h
    simp [reveal, h]
  · intro h
    simp [minimapCellColor, h]
  · intro h
    simp [minimapCellColor, h]

/-- Witness for C6: concrete fog facts obtained from the theorem. -/
theorem minimap_fog_of_war_witness :
    (revealSeq 3 [(9, 9), (5, 5)] (fun c => decide (c = (0, 0))) (0, 0) = true) ∧
    (reveal (fun _ => false) (2, 2) 3 (0, 1) = true) ∧
    (minimapCellColor [[' ']] (fun _ => false) (0, 0) = fogColor) ∧
    (npcMarkerDrawn (fun _ => false) (4, 4) = false) := by
  obtain ⟨h1, h2, h3, h4, h5⟩ := minimap_fog_of_war [[' ']] 3 (fun _ => false)
    [(9, 9), (5, 5)] (2, 2) (0, 1)
  refine ⟨?_, h2 (by decide), ?_, ?_⟩
  · obtain ⟨g1, -, -, -, -⟩ := minimap_fog_of_war [[' ']] 3 (fun c => decide (c = (0, 0)))
      [(9, 9), (5, 5)] (2, 2) (0, 0)
    exact g1 (by decide)
  · obtain ⟨-, -, g3, -, -⟩ := minimap_fog_of_war [[' ']] 3 (fun _ => false)
      [] (0, 0) (0, 0)
    exact g3 rfl
  · exact (minimap_fog_of_war [[' ']] 3 (fun _ => false) [] (0, 0) (4, 4)).2.2.2.2

end Raycast
